import Mathlib

/-!
Verification model of the OBDM URI-mapping toolkit
(`modules/mapping.py` and `modules/replace_URIs.py`).

The Python source is shallowly embedded: every mutable object becomes an
explicit state record, every method a pure function
`state → Except Err (result × state)` (or simpler when it cannot fail or
cannot mutate), and Python exceptions become values of the error type `Err`.
External collaborators that the code consumes through narrow interfaces (the
`validators.url` predicate, the YAML renderer) are represented as data carried
by the state (a `String → Bool` oracle, a list of pre-rendered preamble
lines).

The file has two parts: first the definitions translated from the source,
then the theorems about them.
-/

namespace OBDM

instance {ε α : Type} [DecidableEq ε] [DecidableEq α] : DecidableEq (Except ε α) := fun x y =>
  match x, y with
  | .ok a, .ok b =>
    if h : a = b then .isTrue (by rw [h]) else .isFalse (by simp [h])
  | .error a, .error b =>
    if h : a = b then .isTrue (by rw [h]) else .isFalse (by simp [h])
  | .ok _, .error _ => .isFalse (by simp)
  | .error _, .ok _ => .isFalse (by simp)

/-- Root namespace for internal identifiers (`NN_domain` in mapping.py). -/
def NN_domain : String := "https://ontology.novonordisk.com/"

/-- Error taxonomy of the system.  `unknownPfx` is `UnknownPrefix` (a
`KeyError` subclass), `invalidURI` is `InvalidURI` (a `ValueError`),
`recordExists` is `RecordExists` (a `KeyError` subclass), `keyError` is a
plain `KeyError`.  `assertFail` models a failed `assert`; the two
domain-registry conflict asserts are singled out as
`domainRegistrationConflict`, the minting ceiling assert as
`mintCeilingExceeded` (following the spec's taxonomy). -/
inductive Err where
  | unknownPfx (key : String)
  | invalidURI (key : String)
  | recordExists (key : String)
  | keyError (key : String)
  | assertFail
  | valueError
  | domainRegistrationConflict
  | notRegistered (key : String)
  | mintCeilingExceeded
  | fuelOut
deriving DecidableEq

/-- Whether a Python `except KeyError` clause catches this error
(`UnknownPrefix` and `RecordExists` are declared as `KeyError` subclasses). -/
def Err.isKeyError : Err → Bool
  | .unknownPfx _ => true
  | .recordExists _ => true
  | .keyError _ => true
  | _ => false

/-- Python `dict` read (`d.get(k)` / `d[k]`): first matching key. -/
def alookup {β : Type} : List (String × β) → String → Option β
  | [], _ => none
  | kv :: rest, k => if kv.1 = k then some kv.2 else alookup rest k

/-! ### Character-list primitives

Python string operations used by the source, implemented over `List Char`
(`String` is just a wrapper around its `data` field). -/

/-- `a` is a prefix of `b` (Python `str.startswith` as used by the trie lookup). -/
def isPfx : List Char → List Char → Bool
  | [], _ => true
  | _ :: _, [] => false
  | a :: as, b :: bs => decide (a = b) && isPfx as bs

/-- Split at the first occurrence of `sep` (Python `str.partition` /
`str.split(sep, 1)`); `none` when `sep` does not occur. -/
def splitFirst (sep : Char) : List Char → Option (List Char × List Char)
  | [] => none
  | c :: cs =>
    if c = sep then some ([], cs)
    else (splitFirst sep cs).map (fun pr => (c :: pr.1, pr.2))

/-! ### Converter2 (mapping.py lines 54–143)

The `curies.Converter` base class keeps a map from short names to namespace
strings and offers trie-style longest-namespace matching.  `pm` is that map as
an association list; `isUrl` is the external `validators.url` collaborator. -/

structure Conv where
  pm : List (String × String)
  isUrl : String → Bool

/-- Pick the record with the longest namespace string (curies' trie returns the
match that shortens the identifier the most); earlier records win ties. -/
def pickLongest : List (String × String) → Option (String × String)
  | [] => none
  | p :: ps =>
    match pickLongest ps with
    | none => some p
    | some q => if q.2.length > p.2.length then some q else some p

/-- `curies.Converter.parse_uri`: longest registered namespace that prefixes
`u`; returns the short name and the remaining local part. -/
def parseUri (pm : List (String × String)) (u : String) : Option (String × String) :=
  match pickLongest (pm.filter (fun pr => isPfx pr.2.data u.data)) with
  | some pr => some (pr.1, String.mk (u.data.drop pr.2.data.length))
  | none => none

/-- `curies.Converter.parse_curie`: split at the first colon; Python raises
`ValueError` when there is none, modelled as `none`. -/
def parseCurie (s : String) : Option (String × String) :=
  (splitFirst ':' s.data).map (fun pr => (String.mk pr.1, String.mk pr.2))

/-- The part before the first colon, or the whole string when there is no colon
(Python `str.partition(":")[0]`, used by `curies.Converter.expand`). -/
def partitionHead (v : String) : String :=
  match splitFirst ':' v.data with
  | some pr => String.mk pr.1
  | none => v

/-- `curies.Converter.expand` (non-strict): split at the first colon and look
the head up in the map; a string without a colon is looked up whole (with an
empty local part), mirroring `str.partition`. -/
def superExpand (pm : List (String × String)) (v : String) : Option String :=
  match splitFirst ':' v.data with
  | some pr => (alookup pm (String.mk pr.1)).map (fun ns => ns ++ String.mk pr.2)
  | none => (alookup pm v).map (fun ns => ns ++ "")

namespace Converter2

/-- `Converter2.compress(uri, mode="safe")` (mapping.py 57–76), safe branch
inlined with `validate` (107–124): a value matching a registered namespace must
also satisfy `validators.url` (else `InvalidURI`); otherwise it must be a CURIE
whose short name is registered (else `UnknownPrefix`); a CURIE is returned
as-is, a URI is compressed via the base class. -/
def compress_safe (c : Conv) (v : String) : Except Err String :=
  match parseUri c.pm v with
  | some pr =>
    if c.isUrl v then .ok (pr.1 ++ ":" ++ pr.2) else .error (.invalidURI v)
  | none =>
    match parseCurie v with
    | some pr =>
      if (alookup c.pm pr.1).isSome then .ok v else .error (.unknownPfx v)
    | none => .error (.unknownPfx v)

/-- `Converter2.compress(uri, mode="fast")`: empty input yields empty output;
otherwise the base-class result when truthy, else the input unchanged. -/
def compress_fast (c : Conv) (v : String) : String :=
  if v = "" then ""
  else
    match parseUri c.pm v with
    | some pr => if pr.1 ++ ":" ++ pr.2 = "" then v else pr.1 ++ ":" ++ pr.2
    | none => v

/-- `Converter2.expand(curie, mode="safe")` (mapping.py 78–97), safe branch
inlined with `validate`: a registered-namespace URI is returned as-is (after
the `validators.url` check), a registered CURIE is expanded. -/
def expand_safe (c : Conv) (v : String) : Except Err String :=
  match parseUri c.pm v with
  | some _ =>
    if c.isUrl v then .ok v else .error (.invalidURI v)
  | none =>
    match parseCurie v with
    | some pr =>
      match alookup c.pm pr.1 with
      | some ns => .ok (ns ++ pr.2)
      | none => .error (.unknownPfx v)
    | none => .error (.unknownPfx v)

/-- `Converter2.expand(curie, mode="fast")`. -/
def expand_fast (c : Conv) (v : String) : String :=
  if v = "" then ""
  else
    match superExpand c.pm v with
    | some u => if u = "" then v else u
    | none => v

/-- `Converter2.standardize` (mapping.py 126–128): pass through `expand` then
`compress`, both in the default safe mode. -/
def standardize (c : Conv) (v : String) : Except Err String :=
  (expand_safe c v).bind (compress_safe c)

end Converter2

/-- A concrete converter used to instantiate the algebraic theorems: two
registered namespaces and a `validators.url` oracle accepting http(s) URLs. -/
def convEx : Conv :=
  ⟨[("ex", "http://example.org/"), ("NN", NN_domain)],
   fun s => isPfx "http".data s.data⟩

/-! ### Mapping (mapping.py lines 204–498)

`Mapping` is a dict from expanded subject identifiers to metadata records
(each record a Python dict from column name to value).  The YAML preamble is
carried as its rendered lines (the renderer is an external codec). -/

/-- One stored metadata record: column name → value (a Python dict). -/
abbrev Record := List (String × String)

/-- Python dict equality on records: same keys bound to the same values. -/
def dictEq (a b : Record) : Bool :=
  a.all (fun kv => decide (alookup b kv.1 = some kv.2)) &&
  b.all (fun kv => decide (alookup a kv.1 = some kv.2))

/-- Python `dict.update` with a single key: replace in place or append. -/
def updateRecord (r : Record) (k v : String) : Record :=
  if (alookup r k).isSome then r.map (fun kv => if kv.1 = k then (k, v) else kv)
  else r ++ [(k, v)]

structure MapState where
  conv : Conv
  defaults : Record
  data : List (String × Record)
  preambleLines : List String

/-- The value argument of `Mapping.set`: either a bare identifier or a full
metadata record. -/
inductive MItem where
  | str (s : String)
  | rcd (r : Record)

/-- The value computed by the body of `Mapping.set` (mapping.py 383–392):
a bare identifier is expanded into an `object_id`-only record; a record drops
columns equal to the configured defaults and, when its `object_id` is
non-empty, has it replaced by its strict expansion.  A record without
`object_id` fails the assert. -/
def computeValue (m : MapState) (item : MItem) : Except Err Record :=
  match item with
  | .str s =>
    match Converter2.expand_safe m.conv s with
    | .error e => .error e
    | .ok e => .ok [("object_id", e)]
  | .rcd r =>
    match alookup r "object_id" with
    | none => .error .assertFail
    | some oid =>
      let value := r.filter (fun kv => !(decide (alookup m.defaults kv.1 = some kv.2)))
      if oid = "" then .ok value
      else
        match Converter2.expand_safe m.conv oid with
        | .error e => .error e
        | .ok e => .ok (updateRecord value "object_id" e)

/-- `Mapping.set` (mapping.py 381–398): expand the key, compute the value,
then no-op on an identical existing record, `RecordExists` on a different
one, insert otherwise. -/
def Mapping.set (m : MapState) (key : String) (item : MItem) : Except Err MapState :=
  match Converter2.expand_safe m.conv key with
  | .error e => .error e
  | .ok ekey =>
    match computeValue m item with
    | .error e => .error e
    | .ok value =>
      match alookup m.data ekey with
      | some stored =>
        if dictEq value stored then .ok m else .error (.recordExists ekey)
      | none => .ok { m with data := m.data ++ [(ekey, value)] }

/-- `Mapping.__setitem__` (mapping.py 421–426): expand the key and fail with
`RecordExists` whenever the key is already present — before even looking at
the item. -/
def Mapping.setitem (m : MapState) (key item : String) : Except Err MapState :=
  match Converter2.expand_safe m.conv key with
  | .error e => .error e
  | .ok ekey =>
    if (alookup m.data ekey).isSome then .error (.recordExists ekey)
    else
      match Converter2.expand_safe m.conv item with
      | .error e => .error e
      | .ok eitem => .ok { m with data := m.data ++ [(ekey, [("object_id", eitem)])] }

/-- `Mapping.__getitem__` (mapping.py 428–430): the stored `object_id`,
leniently compressed. -/
def Mapping.getitem (m : MapState) (key : String) : Except Err String :=
  match Converter2.expand_safe m.conv key with
  | .error e => .error e
  | .ok ekey =>
    match alookup m.data ekey with
    | none => .error (.keyError ekey)
    | some r =>
      match alookup r "object_id" with
      | none => .error (.keyError "object_id")
      | some oid => .ok (Converter2.compress_fast m.conv oid)

/-- Source defaults of `Mapping.__init__`. -/
def stdDefaults : Record :=
  [("predicate_id", "skos:exactMatch"), ("mapping_justification", "semapv:LexicalMatching")]

/-- A concrete empty store over `convEx`, for instantiating theorems. -/
def mapEx : MapState := ⟨convEx, stdDefaults, [], []⟩

/-- The store of the `c7` scenario with one record, used to instantiate C10. -/
def mapEx1 : MapState :=
  { mapEx with data := [("http://example.org/k", [("object_id", "http://example.org/2")])] }

/-! ### DomainCodes (mapping.py lines 146–201)

Domain codes are kept both ways (`data : domain → code`,
`rev : code → domain`).  Codes are modelled as naturals: they reach the
registry either as Python ints or as decimal strings put through `int(...)`,
and are normalized by `"{:02}".format`. -/

def digitChar (n : Nat) : Char := Char.ofNat (48 + n)

/-- Decimal digits of `n`, most significant first (fuel-structured so that it
evaluates inside the kernel; `n + 1` fuel always suffices). -/
def natDigitsAux : Nat → Nat → List Char
  | _, 0 => []
  | n, fuel + 1 =>
    if n < 10 then [digitChar n]
    else natDigitsAux (n / 10) fuel ++ [digitChar (n % 10)]

def natDigits (n : Nat) : List Char := natDigitsAux n (n + 1)

/-- `"{:02}".format(n)`: zero-pad to width two. -/
def formatCode (n : Nat) : String :=
  if n < 10 then String.mk ('0' :: natDigits n) else String.mk (natDigits n)

def digitVal (c : Char) : Option Nat :=
  if '0' ≤ c ∧ c ≤ '9' then some (c.toNat - 48) else none

def parseNatAux : List Char → Nat → Option Nat
  | [], acc => some acc
  | c :: cs, acc =>
    match digitVal c with
    | some d => parseNatAux cs (acc * 10 + d)
    | none => none

/-- Python `int(s)` restricted to plain decimal strings (`ValueError` → `none`). -/
def parseNat (s : String) : Option Nat :=
  match s.data with
  | [] => none
  | l => parseNatAux l 0

/-- A domain code as the registry receives it: a Python int or a string. -/
inductive DCodeIn where
  | num (n : Nat)
  | str (s : String)

def toCodeNat : DCodeIn → Option Nat
  | .num n => some n
  | .str s => parseNat s

structure DCState where
  data : List (String × String)
  rev : List (String × String)
deriving DecidableEq

/-- Python `str.split()` whitespace. -/
def isPyWS (c : Char) : Bool :=
  c = ' ' || c = '\t' || c = '\n' || c = '\r' || c = '\x0B' || c = '\x0C'

/-- `len(domain.split()) == 1 and len(domain) == len(domain.strip())`:
nonempty and free of whitespace. -/
def domainWF (d : String) : Bool :=
  !(d.data.isEmpty) && d.data.all (fun c => !(isPyWS c))

/-- `DomainCodes.__setitem__` (mapping.py 167–183): normalize the code, no-op
on the exact existing pair, then validate and reject any conflicting binding
in either direction. -/
def DomainCodes.setitem (st : DCState) (domain : String) (code : DCodeIn) :
    Except Err DCState :=
  match toCodeNat code with
  | none => .error .valueError
  | some n =>
    let dc := formatCode n
    if (domain, dc) ∈ st.data then .ok st
    else if !(domainWF domain) then .error .assertFail
    else if 100 ≤ n then .error .assertFail
    else if (alookup st.data domain).isSome then .error .domainRegistrationConflict
    else if (alookup st.rev dc).isSome then .error .domainRegistrationConflict
    else .ok ⟨st.data ++ [(domain, dc)], st.rev ++ [(dc, domain)]⟩

/-- `DomainCodes.get_domain` (mapping.py 185–191). -/
def DomainCodes.get_domain (st : DCState) (code : DCodeIn) : Except Err String :=
  match toCodeNat code with
  | none => .error .valueError
  | some n =>
    match alookup st.rev (formatCode n) with
    | some d => .ok d
    | none => .error (.notRegistered (formatCode n))

/-- `DomainCodes.get_code` delegates to `__getitem__` (mapping.py 193–201). -/
def DomainCodes.get_code (st : DCState) (domain : String) : Except Err String :=
  match alookup st.data domain with
  | some dc => .ok dc
  | none => .error (.notRegistered domain)

/-- The registry state after registering ("finance", 7). -/
def dcSt1 : DCState := ⟨[("finance", "07")], [("07", "finance")]⟩

/-! ### NNURIs (mapping.py lines 501–577)

`NNURIs` extends `Mapping` (composition via the `base` field) with the in-use
identifier set `_NNURIs` (held expanded), the counter `_nextNNID`, the ceiling
`_maxID` and the resolved two-digit `_domain_code`. -/

structure NNState where
  base : MapState
  nnuris : List String
  nextNNID : Nat
  maxID : Nat
  domainCode : String

/-- `"{:06}".format(n)`: zero-pad a serial to width six. -/
def pad6 (n : Nat) : String :=
  String.mk (List.replicate (6 - (natDigits n).length) '0' ++ natDigits n)

/-- `NNURIs._format_NNURI` (mapping.py 559–560):
`NN_domain + "{}{:06}".format(domain_code, int(NNID))`. -/
def formatNNURI (st : NNState) (n : Nat) : String :=
  NN_domain ++ st.domainCode ++ pad6 n

/-- The `while` loop of the `nextNNID` property (mapping.py 553–556): advance
past identifiers already in use; the assert `nextNNID < maxID` becomes
`mintCeilingExceeded`.  The fuel argument only bounds the recursion; with fuel
`maxID` the `fuelOut` arm is unreachable because the counter must stay below
`maxID`. -/
def findFree (inUse : List String) (code : String) (maxID : Nat) : Nat → Nat → Except Err Nat
  | cur, 0 =>
    if (NN_domain ++ code ++ pad6 cur) ∈ inUse then
      if cur + 1 < maxID then .error .fuelOut
      else .error .mintCeilingExceeded
    else .ok cur
  | cur, fuel + 1 =>
    if (NN_domain ++ code ++ pad6 cur) ∈ inUse then
      if cur + 1 < maxID then findFree inUse code maxID (cur + 1) fuel
      else .error .mintCeilingExceeded
    else .ok cur

/-- The `nextNNID` property (mapping.py 550–557): run the loop, persist the
final counter, return the zero-padded serial. -/
def NNURIs.nextNNIDrun (st : NNState) : Except Err (String × NNState) :=
  match findFree st.nnuris st.domainCode st.maxID st.nextNNID st.maxID with
  | .error e => .error e
  | .ok n => .ok (pad6 n, { st with nextNNID := n })

/-- `NNURIs.__setitem__` (mapping.py 562–565): `Mapping.__setitem__` followed
by `self._NNURIs.add(self.expand(item))` (a second strict expansion of the
item; set-add keeps the list duplicate-free). -/
def NNURIs.setitem (st : NNState) (key item : String) : Except Err NNState :=
  match Converter2.expand_safe st.base.conv key with
  | .error e => .error e
  | .ok ekey =>
    if (alookup st.base.data ekey).isSome then .error (.recordExists ekey)
    else
      match Converter2.expand_safe st.base.conv item with
      | .error e => .error e
      | .ok eitem =>
        let st1 := { st with base :=
          { st.base with data := st.base.data ++ [(ekey, [("object_id", eitem)])] } }
        match Converter2.expand_safe st1.base.conv item with
        | .error e => .error e
        | .ok eitem2 =>
          .ok { st1 with nnuris :=
            if eitem2 ∈ st1.nnuris then st1.nnuris else st1.nnuris ++ [eitem2] }

/-- `NNURIs.get` (mapping.py 567–573): return the stored CURIE; on a
`KeyError` mint `_format_NNURI(self.nextNNID)` (after the property ran, the
counter holds the minted id, and `int` of the padded serial is that id),
insert it, and read the key back.  Non-`KeyError` exceptions propagate. -/
def NNURIs.get (st : NNState) (key : String) : Except Err (String × NNState) :=
  match Mapping.getitem st.base key with
  | .ok v => .ok (v, st)
  | .error e =>
    if e.isKeyError then
      match NNURIs.nextNNIDrun st with
      | .error e2 => .error e2
      | .ok (_, st1) =>
        match NNURIs.setitem st1 key (formatNNURI st1 st1.nextNNID) with
        | .error e2 => .error e2
        | .ok st2 =>
          match Mapping.getitem st2.base key with
          | .error e2 => .error e2
          | .ok v => .ok (v, st2)
    else .error e

/-- `NNURIs.get_uri` (mapping.py 575–577): `self.expand(self.get(key))`. -/
def NNURIs.get_uri (st : NNState) (key : String) : Except Err (String × NNState) :=
  match NNURIs.get st key with
  | .error e => .error e
  | .ok (v, st1) =>
    match Converter2.expand_safe st1.base.conv v with
    | .error e => .error e
    | .ok u => .ok (u, st1)

/-- A minter whose store already maps one public key: snapshotting the in-use
set from the stored object identifiers, as `NNURIs.__init__` does. -/
def nnEx0 : NNState :=
  { base := { conv := convEx, defaults := stdDefaults,
              data := [("http://example.org/k",
                        [("object_id", "https://ontology.novonordisk.com/01000001")])],
              preambleLines := [] },
    nnuris := ["https://ontology.novonordisk.com/01000001"],
    nextNNID := 1, maxID := 900000, domainCode := "01" }

/-- A freshly initialized minter with an empty store. -/
def nnEx1 : NNState :=
  { base := mapEx, nnuris := [], nextNNID := 1, maxID := 900000, domainCode := "01" }

/-! ### Saving (mapping.py lines 470–498) -/

/-- The fixed SSSOM column vocabulary `Mapping._SSSOM_columns`
(mapping.py 219–262), in canonical order. -/
def SSSOM_columns : List String :=
  ["subject_id", "subject_label", "subject_category", "predicate_id",
   "predicate_label", "predicate_modifier", "object_id", "object_label",
   "object_category", "mapping_justification", "author_id", "author_label",
   "reviewer_id", "reviewer_label", "creator_id", "creator_label", "license",
   "subject_type", "subject_source", "subject_source_version", "object_type",
   "object_source", "object_source_version", "mapping_provider",
   "mapping_source", "mapping_cardinality", "mapping_tool",
   "mapping_tool_version", "mapping_date", "confidence", "curation_rule",
   "curation_rule_text", "subject_match_field", "object_match_field",
   "match_string", "subject_preprocessing", "object_preprocessing",
   "semantic_similarity_score", "semantic_similarity_measure", "see_also",
   "other", "comment"]

/-- `all_columns` of `save_to_file` (mapping.py 481–484): every column used in
a stored record, the default columns, and the subject column. -/
def allUsedColumns (m : MapState) : List String :=
  (m.data.map (fun kv => kv.2.map Prod.fst)).flatten ++
    m.defaults.map Prod.fst ++ ["subject_id"]

/-- `columns` of `save_to_file` (line 486): canonical order restricted to the
used set; anything outside the vocabulary is dropped. -/
def saveColumns (m : MapState) : List String :=
  SSSOM_columns.filter (fun c => decide (c ∈ allUsedColumns m))

/-- One output row (line 495): the subject followed by `get_values` of the
remaining columns — the lenient-compressed stored value, else the default,
else the empty cell (Python's `None` is falsy, so lenient compress maps it to
`""`).  `none` models the `KeyError` when the re-expanded subject is absent. -/
def rowFor (m : MapState) (sid : String) (cols : List String) : Option (List String) :=
  match alookup m.data (Converter2.expand_fast m.conv sid) with
  | none => none
  | some r =>
    some (sid :: cols.map (fun c =>
      match alookup r c with
      | some v => Converter2.compress_fast m.conv v
      | none =>
        match alookup m.defaults c with
        | some v => Converter2.compress_fast m.conv v
        | none => ""))

/-- `sorted(...)` over strings: Python's stable lexicographic sort.  Any
correct sort of a list of strings is the unique `≤`-sorted permutation. -/
def sortStrings (l : List String) : List String := List.insertionSort (· ≤ ·) l

/-- `sorted(self.__iter__())` (line 494): stored keys, leniently compressed,
in lexicographic order. -/
def sortedSubjects (m : MapState) : List String :=
  sortStrings (m.data.map (fun kv => Converter2.compress_fast m.conv kv.1))

def seqOpt {α : Type} : List (Option α) → Option (List α)
  | [] => some []
  | none :: _ => none
  | some a :: rest => (seqOpt rest).map (fun l => a :: l)

def tabJoin (l : List String) : String := String.intercalate "\t" l

/-- `Mapping.save_to_file` (mapping.py 470–498) as the list of lines written:
hash-prefixed preamble lines, the tab-joined header, then one tab-joined row
per stored key in sorted qualified order. -/
def Mapping.save_to_file (m : MapState) : Option (List String) :=
  let cols := saveColumns m
  match seqOpt ((sortedSubjects m).map (fun sid => rowFor m sid cols.tail)) with
  | none => none
  | some rows =>
    some (m.preambleLines.map (fun l => "#" ++ l) ++
      [tabJoin cols] ++ rows.map tabJoin)

/-! ### The graph rewriter (replace_URIs.py)

The rdflib graph is a set of subject/predicate/object triples; it is modelled
as a duplicate-free list (`add` is a no-op on an existing triple, `remove`
drops it).  The loops iterate over snapshots of the matching triples — the
denotational reading of `for p, o in g.predicate_objects(puri)` — and the
`mapping` dict (candidate original → minted identifier) is precomputed before
the loop, as in the source. -/

inductive Node where
  | uri (s : String)
  | lit (s : String)
deriving DecidableEq

structure Triple where
  s : Node
  p : String
  o : Node
deriving DecidableEq

abbrev Graph := List Triple

/-- rdflib `Graph.add`: set semantics, adding an existing triple is a no-op. -/
def gadd (g : Graph) (t : Triple) : Graph := if t ∈ g then g else g ++ [t]

/-- rdflib `Graph.remove`. -/
def gdel (g : Graph) (t : Triple) : Graph := g.filter (fun x => x ≠ t)

/-- `mapping.get(x, x)`: substitute a node by its minted identifier when it is
a candidate, else leave it unchanged. -/
def mget (m : List (String × String)) : Node → Node
  | .uri u =>
    match alookup m u with
    | some v => .uri v
    | none => .uri u
  | .lit s => .lit s

/-- Python `str.replace`: all occurrences, left to right, non-overlapping
(with CPython's empty-pattern behaviour of inserting around every char). -/
def replChars : List Char → List Char → List Char → List Char
  | pat, rep, [] => if pat.isEmpty then rep else []
  | [], rep, c :: cs => rep ++ c :: replChars [] rep cs
  | p :: ps, rep, c :: cs =>
    if isPfx (p :: ps) (c :: cs) then
      rep ++ replChars (p :: ps) rep ((c :: cs).drop (p :: ps).length)
    else c :: replChars (p :: ps) rep cs
termination_by _ _ l => l.length
decreasing_by
  · simp
  · simp [List.length_drop]
    omega
  · simp

def strReplace (s pat rep : String) : String :=
  String.mk (replChars pat.data rep.data s.data)

/-- The object rewrite of the outgoing loop (replace_URIs.py 120–128):
literals pass through, label-node objects get the candidate substring
replaced textually, other objects go through the minted mapping. -/
def computeOnn (m : List (String × String)) (labels : List String)
    (puri nnuri : String) : Node → Node
  | .lit a => .lit a
  | .uri u =>
    if u ∈ labels then .uri (strReplace u puri nnuri)
    else mget m (.uri u)

/-- `o in label_objects` (label objects are graph subjects, hence URIs). -/
def isLabelNode (labels : List String) : Node → Bool
  | .uri u => decide (u ∈ labels)
  | .lit _ => false

/-- One iteration of the label cleanup (replace_URIs.py 134–138). -/
def labelStep (m : List (String × String)) (onn : Node) (g : Graph) (t : Triple) : Graph :=
  gadd (gdel g t) ⟨onn, t.p, mget m t.o⟩

/-- Label cleanup (replace_URIs.py 132–139): every triple whose subject is the
old label node moves to the rewritten label, mapping candidate objects. -/
def rewriteLabel (m : List (String × String)) (g : Graph) (o onn : Node) : Graph :=
  (g.filter (fun t => decide (t.s = o))).foldl (labelStep m onn) g

/-- One iteration of the outgoing loop (replace_URIs.py 119–139). -/
def stepOut (m : List (String × String)) (labels : List String)
    (puri nnuri : String) (g : Graph) (t : Triple) : Graph :=
  let onn := computeOnn m labels puri nnuri t.o
  let g1 := gadd (gdel g t) ⟨.uri nnuri, t.p, onn⟩
  if isLabelNode labels t.o then rewriteLabel m g1 t.o onn else g1

/-- All triples with the candidate as subject (replace_URIs.py 119–139). -/
def processOutgoing (m : List (String × String)) (labels : List String)
    (puri nnuri : String) (g : Graph) : Graph :=
  (g.filter (fun t => decide (t.s = .uri puri))).foldl (stepOut m labels puri nnuri) g

/-- One iteration of the incoming loop (replace_URIs.py 141–146). -/
def inStep (m : List (String × String)) (nnuri : String) (g : Graph) (t : Triple) : Graph :=
  gadd (gdel g t) ⟨mget m t.s, t.p, .uri nnuri⟩

/-- All triples with the candidate as object (replace_URIs.py 141–146). -/
def processIncoming (m : List (String × String)) (puri nnuri : String) (g : Graph) : Graph :=
  (g.filter (fun t => decide (t.o = .uri puri))).foldl (inStep m nnuri) g

/-- The provenance predicate `NNP.sourced_from` (replace_URIs.py 24, 148). -/
def NNP_sourced_from : String := NN_domain ++ "property/sourced_from"

/-- Processing of one candidate (replace_URIs.py 117–149): outgoing loop,
incoming loop, then one provenance triple carrying the qualified original
(`Literal(nnuris.compress(puri))`; `qualify` stands for that compression). -/
def processCandidate (m : List (String × String)) (labels : List String)
    (qualify : String → String) (g : Graph) (pc : String × String) : Graph :=
  let g1 := processOutgoing m labels pc.1 pc.2 g
  let g2 := processIncoming m pc.1 pc.2 g1
  gadd g2 ⟨.uri pc.2, NNP_sourced_from, .lit (qualify pc.1)⟩

/-- The full rewrite pass: candidates in the mapping's insertion order. -/
def rewriteAll (m : List (String × String)) (labels : List String)
    (qualify : String → String) (g : Graph) : Graph :=
  m.foldl (processCandidate m labels qualify) g

/-! ### The minting phase of replace_URIs (lines 99–106) -/

/-- `{puri: URIRef(nnuris.get_uri(str(puri))) for puri in public_URIs}`
threaded through the minter state, in list order. -/
def mintAll : NNState → List String → Except Err (List (String × String) × NNState)
  | st, [] => .ok ([], st)
  | st, k :: ks =>
    match NNURIs.get_uri st k with
    | .error e => .error e
    | .ok (u, st1) =>
      match mintAll st1 ks with
      | .error e => .error e
      | .ok (l, st2) => .ok ((k, u) :: l, st2)

/-- The deterministic minting phase: `public_URIs = sorted(...)` followed by
the mint-everything dict comprehension (replace_URIs.py 99–105). -/
def mintPhase (st : NNState) (cands : List String) :
    Except Err (List (String × String) × NNState) :=
  mintAll st (sortStrings cands)

/-- The `__main__` flow after candidate extraction: sort, fully mint the
assignment, then edit the graph using only the precomputed assignment (the
provenance literal uses the minter's compression, which on successfully minted
registered URIs agrees with its lenient form used here). -/
def runReplace (st : NNState) (cands labels : List String) (g : Graph) :
    Except Err (Graph × NNState) :=
  match mintPhase st cands with
  | .error e => .error e
  | .ok (m, st1) =>
    .ok (rewriteAll m labels (fun u => Converter2.compress_fast st1.base.conv u) g, st1)

/-! ### Invariant vocabulary for the rewrite proof -/

/-- The node is not (the URI of) any of the identifiers in `K`. -/
def KfreeN (K : List String) (x : Node) : Prop := ∀ c ∈ K, x ≠ Node.uri c

/-- What every triple ADDED by the rewrite pass looks like: subject and object
avoid the candidate identifiers, the predicate is an existing predicate or the
provenance predicate. -/
def AddOK (K P : List String) (x : Triple) : Prop :=
  KfreeN K x.s ∧ KfreeN K x.o ∧ (x.p ∈ P ∨ x.p = NNP_sourced_from)

/-- Every predicate of `g` is in `P` or is the provenance predicate. -/
def PredOK (P : List String) (g : Graph) : Prop :=
  ∀ x ∈ g, x.p ∈ P ∨ x.p = NNP_sourced_from

/-- Every triple of `g` is from the base graph `B` or is a well-shaped add. -/
def GOK (K P : List String) (B g : Graph) : Prop :=
  ∀ x ∈ g, x ∈ B ∨ AddOK K P x

/- DEFS-ANCHOR (new definitions go above this line) -/

/-! ## Theorems -/

theorem alookup_mem {β : Type} {l : List (String × β)} {k : String} {v : β}
    (h : alookup l k = some v) : (k, v) ∈ l := by
  induction l with
  | nil => simp [alookup] at h
  | cons kv rest ih =>
    by_cases hk : kv.1 = k
    · simp only [alookup, if_pos hk, Option.some.injEq] at h
      have : kv = (k, v) := by
        cases kv
        simp only at hk h
        simp [hk, h]
      exact this ▸ List.mem_cons_self _ _
    · simp only [alookup, if_neg hk] at h
      exact List.mem_cons_of_mem _ (ih h)

theorem alookup_isSome_of_mem {β : Type} {l : List (String × β)} {k : String} {v : β}
    (h : (k, v) ∈ l) : (alookup l k).isSome := by
  induction l with
  | nil => simp at h
  | cons kv rest ih =>
    by_cases hk : kv.1 = k
    · simp [alookup, hk]
    · simp [alookup, hk]
      rcases List.mem_cons.mp h with h1 | h2
      · subst h1; simp at hk
      · exact ih h2

theorem alookup_of_mem_nodup {β : Type} {l : List (String × β)} {k : String} {v : β}
    (hnd : (l.map Prod.fst).Nodup) (h : (k, v) ∈ l) : alookup l k = some v := by
  induction l with
  | nil => simp at h
  | cons kv rest ih =>
    simp only [List.map_cons, List.nodup_cons] at hnd
    rcases List.mem_cons.mp h with h1 | h2
    · subst h1; simp [alookup]
    · have hne : kv.1 ≠ k := by
        intro he
        exact hnd.1 (he ▸ List.mem_map_of_mem Prod.fst h2)
      simp [alookup, hne]
      exact ih hnd.2 h2

theorem alookup_append_self {β : Type} {l : List (String × β)} {k : String}
    (h : alookup l k = none) (v : β) : alookup (l ++ [(k, v)]) k = some v := by
  induction l with
  | nil => simp [alookup]
  | cons kv rest ih =>
    by_cases hk : kv.1 = k
    · simp [alookup, hk] at h
    · simp [alookup, hk] at h ⊢
      exact ih h

theorem alookup_append_of_ne {β : Type} {l : List (String × β)} {k k' : String} (v : β)
    (h : k' ≠ k) : alookup (l ++ [(k, v)]) k' = alookup l k' := by
  induction l with
  | nil => simp [alookup, if_neg (Ne.symm h)]
  | cons kv rest ih =>
    by_cases hk : kv.1 = k'
    · simp [alookup, if_pos hk]
    · simp only [List.cons_append, alookup, if_neg hk]
      exact ih

theorem isPfx_iff {a b : List Char} : isPfx a b = true ↔ ∃ t, b = a ++ t := by
  induction a generalizing b with
  | nil => simp [isPfx]
  | cons x xs ih =>
    cases b with
    | nil =>
      simp [isPfx]
    | cons y ys =>
      simp only [isPfx, Bool.and_eq_true, decide_eq_true_eq, ih]
      constructor
      · rintro ⟨he, t, ht⟩
        exact ⟨t, by simp [he, ht]⟩
      · rintro ⟨t, ht⟩
        simp only [List.cons_append, List.cons.injEq] at ht
        exact ⟨ht.1.symm, t, ht.2⟩

theorem splitFirst_append {sep : Char} {a : List Char} (b : List Char)
    (h : sep ∉ a) : splitFirst sep (a ++ sep :: b) = some (a, b) := by
  induction a with
  | nil => simp [splitFirst]
  | cons x xs ih =>
    simp only [List.mem_cons, not_or] at h
    simp [splitFirst, if_neg (Ne.symm h.1), ih h.2]

theorem str_data_append (a b : String) : (a ++ b).data = a.data ++ b.data := by
  cases a
  cases b
  rfl

theorem str_mk_data (s : String) : String.mk s.data = s := by
  cases s
  rfl

theorem str_eq_of_data {a b : String} (h : a.data = b.data) : a = b := by
  cases a
  cases b
  simp only at h
  rw [h]

theorem pickLongest_mem {l : List (String × String)} {pr : String × String}
    (h : pickLongest l = some pr) : pr ∈ l := by
  induction l with
  | nil => simp [pickLongest] at h
  | cons p ps ih =>
    simp only [pickLongest] at h
    cases hq : pickLongest ps with
    | none => simp [hq] at h; simp [h]
    | some q =>
      simp only [hq] at h
      by_cases hl : q.2.length > p.2.length
      · simp [hl] at h
        exact List.mem_cons_of_mem _ (ih (h ▸ hq))
      · simp [hl] at h
        simp [h]

theorem parseUri_some {pm : List (String × String)} {u p rest : String}
    (h : parseUri pm u = some (p, rest)) :
    ∃ ns, (p, ns) ∈ pm ∧ isPfx ns.data u.data = true ∧
      rest = String.mk (u.data.drop ns.data.length) := by
  unfold parseUri at h
  cases hp : pickLongest (pm.filter (fun pr => isPfx pr.2.data u.data)) with
  | none => simp [hp] at h
  | some pr =>
    simp only [hp, Option.some.injEq, Prod.mk.injEq] at h
    have hm := pickLongest_mem hp
    have hm2 := List.mem_filter.mp hm
    exact ⟨pr.2, by
      obtain ⟨h1, h2⟩ := h
      subst h1
      exact ⟨by simpa using hm2.1, by simpa using hm2.2, h2.symm⟩⟩

theorem drop_of_isPfx {a b : List Char} (h : isPfx a b = true) :
    a ++ b.drop a.length = b := by
  obtain ⟨t, ht⟩ := isPfx_iff.mp h
  subst ht
  rw [List.drop_left]

theorem parseCurie_append {p rest : String} (hp : ':' ∉ p.data) :
    parseCurie (p ++ ":" ++ rest) = some (p, rest) := by
  unfold parseCurie
  have hd : (p ++ ":" ++ rest).data = p.data ++ ':' :: rest.data := by
    rw [str_data_append, str_data_append]
    have : (":" : String).data = [':'] := rfl
    rw [this, List.append_assoc]
    rfl
  rw [hd, splitFirst_append _ hp]
  simp [str_mk_data]

/-- Core round-trip fact shared by the compress/expand algebra: when `u`
matches a registered namespace, satisfies the URL check, the matched short
name is colon-free and the resulting CURIE does not itself match a registered
namespace, then safe compress produces the CURIE and safe expand maps it back
to `u`. -/
theorem roundtrip_core {c : Conv} {u p rest : String}
    (hnd : (c.pm.map Prod.fst).Nodup)
    (hu : c.isUrl u = true)
    (hp : ':' ∉ p.data)
    (hparse : parseUri c.pm u = some (p, rest))
    (hnu : parseUri c.pm (p ++ ":" ++ rest) = none) :
    Converter2.compress_safe c u = .ok (p ++ ":" ++ rest) ∧
    Converter2.expand_safe c (p ++ ":" ++ rest) = .ok u := by
  constructor
  · simp [Converter2.compress_safe, hparse, hu]
  · obtain ⟨ns, hmem, hpfx, hrest⟩ := parseUri_some hparse
    have hlk : alookup c.pm p = some ns := alookup_of_mem_nodup hnd hmem
    have hexp : ns ++ rest = u := by
      apply str_eq_of_data
      rw [str_data_append, hrest]
      exact drop_of_isPfx hpfx
    simp [Converter2.expand_safe, hnu, parseCurie_append hp, hlk, hexp]

/-- C4: for an identifier `u` whose namespace is registered in the converter's
map (and which passes the URL validator, with a well-formed map: unique
colon-free short names, and the produced CURIE not itself matching a
namespace), safe-mode `expand (compress u) = u`. -/
theorem c4_expand_compress_roundtrip (c : Conv) (u p rest : String)
    (hnd : (c.pm.map Prod.fst).Nodup)
    (hu : c.isUrl u = true)
    (hp : ':' ∉ p.data)
    (hparse : parseUri c.pm u = some (p, rest))
    (hnu : parseUri c.pm (p ++ ":" ++ rest) = none) :
    Converter2.compress_safe c u = .ok (p ++ ":" ++ rest) ∧
    Converter2.expand_safe c (p ++ ":" ++ rest) = .ok u :=
  roundtrip_core hnd hu hp hparse hnu

theorem c4_expand_compress_roundtrip_witness :
    Converter2.compress_safe convEx "http://example.org/1" = .ok "ex:1" ∧
    Converter2.expand_safe convEx "ex:1" = .ok "http://example.org/1" :=
  c4_expand_compress_roundtrip convEx "http://example.org/1" "ex" "1"
    (by decide) (by decide) (by decide) (by decide) (by decide)

/-- C5 counterexample: on a registered CURIE `"ex:1"`, the chain
`expand (compress x)` yields the expanded form, while
`standardize x = compress (expand x)` yields the compressed form — the two
sides of the claimed equation differ. -/
theorem c5_standardize_counterexample :
    ¬ ((Converter2.compress_safe convEx "ex:1").bind (Converter2.expand_safe convEx) =
        Converter2.standardize convEx "ex:1") := by
  intro h
  have h1 : (Converter2.compress_safe convEx "ex:1").bind (Converter2.expand_safe convEx) =
      .ok "http://example.org/1" := rfl
  have h2 : Converter2.standardize convEx "ex:1" = .ok "ex:1" := rfl
  rw [h1, h2] at h
  injection h with h
  exact absurd h (by decide)

/-- C5 amended: `standardize = compress ∘ expand` is idempotent — the CURIE
form is a fixed point, a registered URI standardizes to that fixed point, and
re-applying `standardize` to either result changes nothing.  (The claimed
equation `expand (compress x) = standardize x` fails: the left side is the
expanded form, the right side the compressed form.) -/
theorem c5_standardize_idempotent (c : Conv) (u p rest : String)
    (hnd : (c.pm.map Prod.fst).Nodup)
    (hu : c.isUrl u = true)
    (hp : ':' ∉ p.data)
    (hparse : parseUri c.pm u = some (p, rest))
    (hnu : parseUri c.pm (p ++ ":" ++ rest) = none) :
    Converter2.standardize c (p ++ ":" ++ rest) = .ok (p ++ ":" ++ rest) ∧
    Converter2.standardize c u = .ok (p ++ ":" ++ rest) ∧
    (Converter2.standardize c u).bind (Converter2.standardize c) =
      Converter2.standardize c u ∧
    (Converter2.standardize c (p ++ ":" ++ rest)).bind (Converter2.standardize c) =
      Converter2.standardize c (p ++ ":" ++ rest) := by
  obtain ⟨hcomp, hexp⟩ := roundtrip_core hnd hu hp hparse hnu
  have hexpu : Converter2.expand_safe c u = .ok u := by
    simp [Converter2.expand_safe, hparse, hu]
  have h1 : Converter2.standardize c (p ++ ":" ++ rest) = .ok (p ++ ":" ++ rest) := by
    unfold Converter2.standardize
    rw [hexp]
    exact hcomp
  have h2 : Converter2.standardize c u = .ok (p ++ ":" ++ rest) := by
    unfold Converter2.standardize
    rw [hexpu]
    exact hcomp
  refine ⟨h1, h2, ?_, ?_⟩
  · rw [h2]
    exact h1
  · rw [h1]
    exact h1

theorem c5_standardize_idempotent_witness :
    Converter2.standardize convEx "ex:1" = .ok "ex:1" ∧
    Converter2.standardize convEx "http://example.org/1" = .ok "ex:1" ∧
    (Converter2.standardize convEx "http://example.org/1").bind
      (Converter2.standardize convEx) =
      Converter2.standardize convEx "http://example.org/1" ∧
    (Converter2.standardize convEx "ex:1").bind (Converter2.standardize convEx) =
      Converter2.standardize convEx "ex:1" :=
  c5_standardize_idempotent convEx "http://example.org/1" "ex" "1"
    (by decide) (by decide) (by decide) (by decide) (by decide)

/-- C6: when neither reading of `v` is registered (no registered namespace
prefixes it, and the part before its first colon — or the whole of `v` when it
has none — is not a registered short name), strict compress and expand raise
`UnknownPrefix` carrying `v`, lenient compress and expand return `v`
unchanged, and lenient mode maps empty input to empty output. -/
theorem c6_unknown_and_lenient (c : Conv) (v : String)
    (h1 : parseUri c.pm v = none)
    (h2 : alookup c.pm (partitionHead v) = none) :
    Converter2.compress_safe c v = .error (.unknownPfx v) ∧
    Converter2.expand_safe c v = .error (.unknownPfx v) ∧
    Converter2.compress_fast c v = v ∧
    Converter2.expand_fast c v = v ∧
    Converter2.compress_fast c "" = "" ∧
    Converter2.expand_fast c "" = "" := by
  refine ⟨?_, ?_, ?_, ?_, rfl, rfl⟩
  · unfold Converter2.compress_safe
    rw [h1]
    unfold parseCurie
    cases hsp : splitFirst ':' v.data with
    | none => simp
    | some pr =>
      have hph : partitionHead v = String.mk pr.1 := by
        unfold partitionHead
        rw [hsp]
      rw [hph] at h2
      simp [h2]
  · unfold Converter2.expand_safe
    rw [h1]
    unfold parseCurie
    cases hsp : splitFirst ':' v.data with
    | none => simp
    | some pr =>
      have hph : partitionHead v = String.mk pr.1 := by
        unfold partitionHead
        rw [hsp]
      rw [hph] at h2
      simp [h2]
  · unfold Converter2.compress_fast
    by_cases hv : v = ""
    · simp [hv]
    · simp [hv, h1]
  · unfold Converter2.expand_fast
    by_cases hv : v = ""
    · simp [hv]
    · unfold superExpand
      cases hsp : splitFirst ':' v.data with
      | none =>
        have hph : partitionHead v = v := by
          unfold partitionHead
          rw [hsp]
        rw [hph] at h2
        simp [hv, h2]
      | some pr =>
        have hph : partitionHead v = String.mk pr.1 := by
          unfold partitionHead
          rw [hsp]
        rw [hph] at h2
        simp [hv, h2]

theorem c6_unknown_and_lenient_witness :
    Converter2.compress_safe convEx "foo:bar" = .error (.unknownPfx "foo:bar") ∧
    Converter2.expand_safe convEx "foo:bar" = .error (.unknownPfx "foo:bar") ∧
    Converter2.compress_fast convEx "foo:bar" = "foo:bar" ∧
    Converter2.expand_fast convEx "foo:bar" = "foo:bar" ∧
    Converter2.compress_fast convEx "" = "" ∧
    Converter2.expand_fast convEx "" = "" :=
  c6_unknown_and_lenient convEx "foo:bar" (by decide) (by decide)

theorem dictEq_refl {a : Record} (h : (a.map Prod.fst).Nodup) : dictEq a a = true := by
  unfold dictEq
  rw [Bool.and_eq_true]
  constructor <;>
  · rw [List.all_eq_true]
    intro kv hkv
    rw [decide_eq_true_eq]
    exact alookup_of_mem_nodup h hkv

theorem computeValue_data_irrel (m : MapState) (d : List (String × Record))
    (p : List String) (item : MItem) :
    computeValue { m with data := d, preambleLines := p } item = computeValue m item := rfl

/-- C7: starting from a store where `key` is absent, a first `set` inserts the
computed record; a second `set` with the identical value is a no-op returning
the very same store; a `set` whose computed value differs from the stored
record raises `RecordExists` and (being a pure `Except`) leaves no modified
store behind. -/
theorem c7_set_noop_and_conflict (m : MapState) (key ekey : String) (v v2 : MItem)
    (val val2 : Record)
    (hek : Converter2.expand_safe m.conv key = .ok ekey)
    (hv : computeValue m v = .ok val)
    (hnd : (val.map Prod.fst).Nodup)
    (hfresh : alookup m.data ekey = none)
    (hv2 : computeValue m v2 = .ok val2)
    (hne : dictEq val2 val = false) :
    ∃ m', Mapping.set m key v = .ok m' ∧
      Mapping.set m' key v = .ok m' ∧
      Mapping.set m' key v2 = .error (.recordExists ekey) := by
  refine ⟨{ m with data := m.data ++ [(ekey, val)] }, ?_, ?_, ?_⟩
  · simp [Mapping.set, hek, hv, hfresh]
  · have hstored := alookup_append_self hfresh val
    simp [Mapping.set, computeValue_data_irrel, hek, hv, hstored, dictEq_refl hnd]
  · have hstored := alookup_append_self hfresh val
    simp [Mapping.set, computeValue_data_irrel, hek, hv2, hstored, hne]

theorem c7_set_noop_and_conflict_witness :
    Converter2.expand_safe mapEx.conv "ex:k" = .ok "http://example.org/k" ∧
    ∃ m', Mapping.set mapEx "ex:k" (.str "ex:2") = .ok m' ∧
      Mapping.set m' "ex:k" (.str "ex:2") = .ok m' ∧
      Mapping.set m' "ex:k" (.str "NN:000001") = .error (.recordExists "http://example.org/k") :=
  ⟨by decide,
   c7_set_noop_and_conflict mapEx "ex:k" "http://example.org/k" (.str "ex:2")
     (.str "NN:000001") [("object_id", "http://example.org/2")]
     [("object_id", "https://ontology.novonordisk.com/000001")]
     (by decide) (by decide) (by decide) (by decide) (by decide) (by decide)⟩

/-- C10: bracket assignment (`__setitem__`) raises `RecordExists` for any key
already present — even when the stored record is exactly the one the
assignment would produce — while `set` with that same bare item is a no-op. -/
theorem c10_setitem_rejects_existing (m : MapState) (key item ekey eitem : String)
    (hek : Converter2.expand_safe m.conv key = .ok ekey)
    (heit : Converter2.expand_safe m.conv item = .ok eitem)
    (hstored : alookup m.data ekey = some [("object_id", eitem)]) :
    Mapping.setitem m key item = .error (.recordExists ekey) ∧
    Mapping.set m key (.str item) = .ok m := by
  constructor
  · simp [Mapping.setitem, hek, hstored]
  · have hv : computeValue m (.str item) = .ok [("object_id", eitem)] := by
      simp [computeValue, heit]
    have hrefl : dictEq [("object_id", eitem)] [("object_id", eitem)] = true :=
      dictEq_refl (by simp)
    simp [Mapping.set, hek, hv, hstored, hrefl]

theorem c10_setitem_rejects_existing_witness :
    Mapping.setitem mapEx1 "ex:k" "ex:2" = .error (.recordExists "http://example.org/k") ∧
    Mapping.set mapEx1 "ex:k" (.str "ex:2") = .ok mapEx1 :=
  c10_setitem_rejects_existing mapEx1 "ex:k" "ex:2" "http://example.org/k"
    "http://example.org/2" (by decide) (by decide) (by decide)

/-- C8: registering domain "finance" with int code 7 normalizes the code to
"07", so looking the string code "07" up returns "finance"; re-registering the
same pair is a no-op; registering a second domain under "07", or rebinding
"finance" to 8, is a `DomainRegistrationConflict`. -/
theorem c8_domain_code_registry :
    DomainCodes.setitem ⟨[], []⟩ "finance" (.num 7) = .ok dcSt1 ∧
    DomainCodes.get_domain dcSt1 (.str "07") = .ok "finance" ∧
    DomainCodes.setitem dcSt1 "finance" (.num 7) = .ok dcSt1 ∧
    DomainCodes.setitem dcSt1 "insurance" (.str "07") = .error .domainRegistrationConflict ∧
    DomainCodes.setitem dcSt1 "finance" (.num 8) = .error .domainRegistrationConflict := by
  decide

theorem findFree_not_mem {inUse : List String} {code : String} {maxID : Nat} :
    ∀ {fuel cur n : Nat}, findFree inUse code maxID cur fuel = .ok n →
      (NN_domain ++ code ++ pad6 n) ∉ inUse := by
  intro fuel
  induction fuel with
  | zero =>
    intro cur n h
    by_cases hm : (NN_domain ++ code ++ pad6 cur) ∈ inUse
    · by_cases hb : cur + 1 < maxID <;> simp [findFree, hm, hb] at h
    · simp [findFree, hm] at h
      exact h ▸ hm
  | succ f ih =>
    intro cur n h
    by_cases hm : (NN_domain ++ code ++ pad6 cur) ∈ inUse
    · by_cases hb : cur + 1 < maxID
      · simp only [findFree, if_pos hm, if_pos hb] at h
        exact ih h
      · simp [findFree, hm, hb] at h
    · simp [findFree, hm] at h
      exact h ▸ hm

theorem findFree_self {inUse : List String} {code : String} {maxID n fuel : Nat}
    (h : (NN_domain ++ code ++ pad6 n) ∉ inUse) :
    findFree inUse code maxID n fuel = .ok n := by
  cases fuel <;> simp [findFree, h]

theorem formatNNURI_irrel (st : NNState) (b : MapState) (nn : List String)
    (k m : Nat) :
    formatNNURI { st with base := b, nnuris := nn, nextNNID := k } m = formatNNURI st m := rfl

/-- C2 counterexample: for a minter whose store already maps a key, `get` on
that key returns the stored identifier, whose expansion lies in the in-use
set snapshotted at construction — refuting "never returns an identifier that
was in the in-use set" as stated, without the previously-unseen-key proviso. -/
theorem c2_inuse_counterexample :
    ¬ (∀ (key r : String) (st' : NNState),
        NNURIs.get nnEx0 key = .ok (r, st') →
        Converter2.expand_fast nnEx0.base.conv r ∉ nnEx0.nnuris) := by
  intro h
  have hmem : Converter2.expand_fast nnEx0.base.conv "NN:01000001" ∈ nnEx0.nnuris := by
    decide
  exact h "ex:k" "NN:01000001" nnEx0 rfl hmem

/-- C2 amended: for a previously-unseen key, `get` mints
`formatNNURI st n` where `n` is the first serial not in use — an identifier
outside the snapshotted in-use set — stores it, adds it to the in-use set and
leaves the counter at `n`; a second `get` with the same key returns the
identical CURIE and the identical state (exactly one identifier was
allocated); and `nextNNID` run twice without a commit returns the same padded
serial and the same state both times. -/
theorem c2_minting (st : NNState) (key ekey : String) (n : Nat)
    (hek : Converter2.expand_safe st.base.conv key = .ok ekey)
    (hun : alookup st.base.data ekey = none)
    (hff : findFree st.nnuris st.domainCode st.maxID st.nextNNID st.maxID = .ok n)
    (hexp : Converter2.expand_safe st.base.conv (formatNNURI st n) = .ok (formatNNURI st n)) :
    ∃ st',
      st' = { st with
              base := { st.base with
                        data := st.base.data ++ [(ekey, [("object_id", formatNNURI st n)])] },
              nnuris := st.nnuris ++ [formatNNURI st n],
              nextNNID := n } ∧
      formatNNURI st n ∉ st.nnuris ∧
      NNURIs.get st key =
        .ok (Converter2.compress_fast st.base.conv (formatNNURI st n), st') ∧
      NNURIs.get st' key =
        .ok (Converter2.compress_fast st.base.conv (formatNNURI st n), st') ∧
      NNURIs.nextNNIDrun st = .ok (pad6 n, { st with nextNNID := n }) ∧
      NNURIs.nextNNIDrun { st with nextNNID := n } =
        .ok (pad6 n, { st with nextNNID := n }) := by
  have hnm : formatNNURI st n ∉ st.nnuris := by
    have := findFree_not_mem hff
    simpa [formatNNURI] using this
  refine ⟨_, rfl, hnm, ?_, ?_, ?_, ?_⟩
  · have hgi1 : Mapping.getitem st.base key = .error (.keyError ekey) := by
      simp [Mapping.getitem, hek, hun]
    have hrun : NNURIs.nextNNIDrun st = .ok (pad6 n, { st with nextNNID := n }) := by
      simp [NNURIs.nextNNIDrun, hff]
    have hsi : NNURIs.setitem { st with nextNNID := n } key (formatNNURI st n) =
        .ok { st with
              base := { st.base with
                        data := st.base.data ++ [(ekey, [("object_id", formatNNURI st n)])] },
              nnuris := st.nnuris ++ [formatNNURI st n],
              nextNNID := n } := by
      simp [NNURIs.setitem, hek, hun, hexp, hnm]
    have hgi2 : Mapping.getitem
        { st.base with
          data := st.base.data ++ [(ekey, [("object_id", formatNNURI st n)])] } key =
        .ok (Converter2.compress_fast st.base.conv (formatNNURI st n)) := by
      simp [Mapping.getitem, hek, alookup_append_self hun, alookup]
    simp [NNURIs.get, hgi1, Err.isKeyError, hrun, formatNNURI_irrel, hsi, hgi2]
  · have hgi2 : Mapping.getitem
        { st.base with
          data := st.base.data ++ [(ekey, [("object_id", formatNNURI st n)])] } key =
        .ok (Converter2.compress_fast st.base.conv (formatNNURI st n)) := by
      simp [Mapping.getitem, hek, alookup_append_self hun, alookup]
    simp [NNURIs.get, hgi2]
  · simp [NNURIs.nextNNIDrun, hff]
  · have hnm2 : (NN_domain ++ st.domainCode ++ pad6 n) ∉ st.nnuris := by
      simpa [formatNNURI] using hnm
    simp [NNURIs.nextNNIDrun, findFree_self hnm2]

theorem c2_minting_witness :
    ∃ st',
      st' = { nnEx1 with
              base := { nnEx1.base with
                        data := nnEx1.base.data ++
                          [("http://example.org/k", [("object_id", formatNNURI nnEx1 1)])] },
              nnuris := nnEx1.nnuris ++ [formatNNURI nnEx1 1],
              nextNNID := 1 } ∧
      formatNNURI nnEx1 1 ∉ nnEx1.nnuris ∧
      NNURIs.get nnEx1 "ex:k" =
        .ok (Converter2.compress_fast nnEx1.base.conv (formatNNURI nnEx1 1), st') ∧
      NNURIs.get st' "ex:k" =
        .ok (Converter2.compress_fast nnEx1.base.conv (formatNNURI nnEx1 1), st') ∧
      NNURIs.nextNNIDrun nnEx1 = .ok (pad6 1, { nnEx1 with nextNNID := 1 }) ∧
      NNURIs.nextNNIDrun { nnEx1 with nextNNID := 1 } =
        .ok (pad6 1, { nnEx1 with nextNNID := 1 }) :=
  c2_minting nnEx1 "ex:k" "http://example.org/k" 1
    (by decide) (by decide) (by decide) (by decide)

theorem sortStrings_perm_eq {l1 l2 : List String} (h : l1.Perm l2) :
    sortStrings l1 = sortStrings l2 := by
  haveI t : IsTotal String (· ≤ ·) := ⟨le_total⟩
  haveI tr : IsTrans String (· ≤ ·) := ⟨fun _ _ _ hab hbc => le_trans hab hbc⟩
  haveI anti : IsAntisymm String (· ≤ ·) := ⟨fun _ _ hab hba => le_antisymm hab hba⟩
  unfold sortStrings
  exact List.eq_of_perm_of_sorted
    ((List.perm_insertionSort _ l1).trans (h.trans (List.perm_insertionSort _ l2).symm))
    (List.sorted_insertionSort _ l1) (List.sorted_insertionSort _ l2)

/-- C3: the minting phase sorts the candidates lexicographically and mints the
complete assignment before any graph mutation (structurally, `runReplace`
edits the graph only with the precomputed assignment), so any two
presentations of the same candidate set — any permutation, i.e. any traversal
order — produce the identical assignment, minter state and rewritten graph. -/
theorem c3_mint_order_independent (st : NNState) (l1 l2 : List String)
    (labels : List String) (g : Graph) (hp : l1.Perm l2) :
    mintPhase st l1 = mintPhase st l2 ∧
    runReplace st l1 labels g = runReplace st l2 labels g := by
  have hm : mintPhase st l1 = mintPhase st l2 := by
    unfold mintPhase
    rw [sortStrings_perm_eq hp]
  refine ⟨hm, ?_⟩
  unfold runReplace
  rw [hm]

theorem c3_mint_order_independent_witness :
    mintPhase nnEx1 ["http://example.org/b", "http://example.org/a"] =
      mintPhase nnEx1 ["http://example.org/a", "http://example.org/b"] ∧
    runReplace nnEx1 ["http://example.org/b", "http://example.org/a"] [] [] =
      runReplace nnEx1 ["http://example.org/a", "http://example.org/b"] [] [] :=
  c3_mint_order_independent nnEx1
    ["http://example.org/b", "http://example.org/a"]
    ["http://example.org/a", "http://example.org/b"] [] []
    (List.Perm.swap "http://example.org/a" "http://example.org/b" [])

theorem seqOpt_map_some {α β : Type} {l : List α} {f : α → Option β}
    (h : ∀ x ∈ l, (f x).isSome) :
    ∃ bs, seqOpt (l.map f) = some bs ∧
      List.Forall₂ (fun x b => f x = some b) l bs := by
  induction l with
  | nil => exact ⟨[], rfl, List.Forall₂.nil⟩
  | cons a rest ih =>
    obtain ⟨bs, hbs, hf⟩ := ih (fun x hx => h x (List.mem_cons_of_mem _ hx))
    obtain ⟨b, hb⟩ := Option.isSome_iff_exists.mp (h a (List.mem_cons_self _ _))
    refine ⟨b :: bs, ?_, List.Forall₂.cons hb hf⟩
    simp [seqOpt, hb, hbs]

/-- C9: under the round-trip condition on stored keys (their lenient
compression re-expands to themselves), `save_to_file` emits exactly the
hash-prefixed preamble block, then the tab-joined header, then the tab-joined
rows; there is one row per stored key, each row starts with its subject and
has one cell per header column; the subjects appear in `≤`-sorted order and
are precisely the compressed stored keys; the header is a subsequence of the
canonical column order containing exactly the canonical columns that are used
(or default, or the subject column) — so columns outside the canonical
vocabulary are dropped — and it starts with `subject_id`. -/
theorem c9_save_to_file (m : MapState)
    (hrt : ∀ kv ∈ m.data,
      Converter2.expand_fast m.conv (Converter2.compress_fast m.conv kv.1) = kv.1) :
    ∃ rows : List (List String),
      Mapping.save_to_file m =
        some (m.preambleLines.map (fun l => "#" ++ l) ++
          [tabJoin (saveColumns m)] ++ rows.map tabJoin) ∧
      rows.length = m.data.length ∧
      rows.map List.head? = (sortedSubjects m).map some ∧
      (∀ r ∈ rows, r.length = (saveColumns m).length) ∧
      (saveColumns m).Sublist SSSOM_columns ∧
      (∀ c, c ∈ saveColumns m ↔ c ∈ SSSOM_columns ∧ c ∈ allUsedColumns m) ∧
      (saveColumns m).head? = some "subject_id" ∧
      List.Sorted (· ≤ ·) (sortedSubjects m) ∧
      (sortedSubjects m).Perm
        (m.data.map (fun kv => Converter2.compress_fast m.conv kv.1)) := by
  have hsub_mem : "subject_id" ∈ allUsedColumns m := by
    simp [allUsedColumns]
  have hhead : (saveColumns m).head? = some "subject_id" := by
    unfold saveColumns SSSOM_columns
    rw [List.filter_cons]
    simp [hsub_mem]
  have hlen_cols : (saveColumns m).tail.length + 1 = (saveColumns m).length := by
    unfold saveColumns SSSOM_columns
    rw [List.filter_cons]
    simp [hsub_mem]
  have hsome : ∀ sid ∈ sortedSubjects m,
      (rowFor m sid (saveColumns m).tail).isSome := by
    intro sid hsid
    have hmem : sid ∈ m.data.map (fun kv => Converter2.compress_fast m.conv kv.1) :=
      ((List.perm_insertionSort _ _).mem_iff).mp hsid
    obtain ⟨⟨k1, r1⟩, hkv, hke⟩ := List.mem_map.mp hmem
    subst hke
    unfold rowFor
    rw [hrt (k1, r1) hkv]
    have hks := alookup_isSome_of_mem hkv
    cases halk : alookup m.data k1 with
    | none => rw [halk] at hks; simp at hks
    | some r => simp
  obtain ⟨rows, hse, hf2⟩ := seqOpt_map_some hsome
  have hshape : ∀ x b, rowFor m x (saveColumns m).tail = some b →
      b.head? = some x ∧ b.length = (saveColumns m).tail.length + 1 := by
    intro x b hb
    unfold rowFor at hb
    cases halk : alookup m.data (Converter2.expand_fast m.conv x) with
    | none => rw [halk] at hb; simp at hb
    | some r =>
      rw [halk] at hb
      simp only [Option.some.injEq] at hb
      subst hb
      simp
  have hheadsAux : ∀ (l : List String) (bs : List (List String)),
      List.Forall₂ (fun x b => rowFor m x (saveColumns m).tail = some b) l bs →
      bs.map List.head? = l.map some ∧
      ∀ r ∈ bs, r.length = (saveColumns m).tail.length + 1 := by
    intro l bs hf
    induction hf with
    | nil => exact ⟨rfl, by simp⟩
    | cons hfx hrest ih =>
      obtain ⟨hh, hl⟩ := ih
      obtain ⟨hh1, hl1⟩ := hshape _ _ hfx
      refine ⟨by simp [hh, hh1], ?_⟩
      intro r hr
      rcases List.mem_cons.mp hr with h1 | h2
      · subst h1; exact hl1
      · exact hl r h2
  have hheads := hheadsAux _ _ hf2
  refine ⟨rows, ?_, ?_, hheads.1, ?_, List.filter_sublist _, ?_, hhead, ?_, ?_⟩
  · simp only [Mapping.save_to_file]
    rw [hse]
  · have h1 := List.Forall₂.length_eq hf2
    have h2 : (sortedSubjects m).length = m.data.length := by
      unfold sortedSubjects sortStrings
      rw [(List.perm_insertionSort _ _).length_eq]
      simp
    omega
  · intro r hr
    rw [← hlen_cols]
    exact hheads.2 r hr
  · intro c
    simp [saveColumns, List.mem_filter]
  · haveI t : IsTotal String (· ≤ ·) := ⟨le_total⟩
    haveI tr : IsTrans String (· ≤ ·) := ⟨fun _ _ _ hab hbc => le_trans hab hbc⟩
    exact List.sorted_insertionSort _ _
  · exact List.perm_insertionSort _ _

theorem c9_save_to_file_witness :
    ∃ rows : List (List String),
      Mapping.save_to_file mapEx1 =
        some (mapEx1.preambleLines.map (fun l => "#" ++ l) ++
          [tabJoin (saveColumns mapEx1)] ++ rows.map tabJoin) ∧
      rows.length = mapEx1.data.length ∧
      rows.map List.head? = (sortedSubjects mapEx1).map some ∧
      (∀ r ∈ rows, r.length = (saveColumns mapEx1).length) ∧
      (saveColumns mapEx1).Sublist SSSOM_columns ∧
      (∀ c, c ∈ saveColumns mapEx1 ↔ c ∈ SSSOM_columns ∧ c ∈ allUsedColumns mapEx1) ∧
      (saveColumns mapEx1).head? = some "subject_id" ∧
      List.Sorted (· ≤ ·) (sortedSubjects mapEx1) ∧
      (sortedSubjects mapEx1).Perm
        (mapEx1.data.map (fun kv => Converter2.compress_fast mapEx1.conv kv.1)) :=
  c9_save_to_file mapEx1 (by decide)

theorem mem_gdel {g : Graph} {t x : Triple} : x ∈ gdel g t ↔ x ∈ g ∧ x ≠ t := by
  unfold gdel
  simp [List.mem_filter]

theorem mem_gadd {g : Graph} {t x : Triple} : x ∈ gadd g t ↔ x ∈ g ∨ x = t := by
  unfold gadd
  by_cases h : t ∈ g
  · rw [if_pos h]
    constructor
    · exact Or.inl
    · rintro (h1 | rfl)
      · exact h1
      · exact h
  · rw [if_neg h]
    simp

theorem nodup_gdel {g : Graph} (t : Triple) (h : g.Nodup) : (gdel g t).Nodup :=
  h.filter _

theorem nodup_gadd {g : Graph} (t : Triple) (h : g.Nodup) : (gadd g t).Nodup := by
  unfold gadd
  by_cases h2 : t ∈ g
  · rwa [if_pos h2]
  · rw [if_neg h2, List.nodup_append]
    refine ⟨h, List.nodup_singleton t, ?_⟩
    intro a ha hat
    simp only [List.mem_singleton] at hat
    exact h2 (hat ▸ ha)

theorem foldl_gaddel_mem (f : Triple → Triple) :
    ∀ (l : List Triple) (g : Graph) (x : Triple),
      x ∈ l.foldl (fun g' t => gadd (gdel g' t) (f t)) g →
      x ∈ g ∨ ∃ t ∈ l, x = f t := by
  intro l
  induction l with
  | nil => intro g x hx; exact Or.inl hx
  | cons t l ih =>
    intro g x hx
    simp only [List.foldl_cons] at hx
    rcases ih _ x hx with h1 | ⟨t', ht', he⟩
    · rcases mem_gadd.mp h1 with h2 | h2
      · exact Or.inl (mem_gdel.mp h2).1
      · exact Or.inr ⟨t, List.mem_cons_self _ _, h2⟩
    · exact Or.inr ⟨t', List.mem_cons_of_mem _ ht', he⟩

theorem foldl_gaddel_keep (f : Triple → Triple) :
    ∀ (l : List Triple) (g : Graph) (x : Triple),
      x ∈ g → (∀ t ∈ l, x ≠ t) →
      x ∈ l.foldl (fun g' t => gadd (gdel g' t) (f t)) g := by
  intro l
  induction l with
  | nil => intro g x hx _; exact hx
  | cons t l ih =>
    intro g x hx hne
    simp only [List.foldl_cons]
    apply ih
    · exact mem_gadd.mpr (Or.inl (mem_gdel.mpr ⟨hx, hne t (List.mem_cons_self _ _)⟩))
    · exact fun t' ht' => hne t' (List.mem_cons_of_mem _ ht')

theorem foldl_gaddel_elim (f : Triple → Triple) (Q : Triple → Prop)
    (hf : ∀ t, ¬ Q (f t)) :
    ∀ (l : List Triple) (g : Graph),
      (∀ x ∈ g, Q x → x ∈ l) →
      ∀ x ∈ l.foldl (fun g' t => gadd (gdel g' t) (f t)) g, ¬ Q x := by
  intro l
  induction l with
  | nil =>
    intro g hpre x hx hQ
    exact absurd (hpre x hx hQ) (List.not_mem_nil x)
  | cons t l ih =>
    intro g hpre x hx
    simp only [List.foldl_cons] at hx
    apply ih _ ?_ x hx
    intro y hy hQy
    rcases mem_gadd.mp hy with h1 | h2
    · obtain ⟨hyg, hyne⟩ := mem_gdel.mp h1
      rcases List.mem_cons.mp (hpre y hyg hQy) with h3 | h3
      · exact absurd h3 hyne
      · exact h3
    · exact absurd hQy (h2 ▸ hf t)

theorem foldl_gaddel_nodup (f : Triple → Triple) :
    ∀ (l : List Triple) (g : Graph), g.Nodup →
      (l.foldl (fun g' t => gadd (gdel g' t) (f t)) g).Nodup := by
  intro l
  induction l with
  | nil => intro g h; exact h
  | cons t l ih =>
    intro g h
    simp only [List.foldl_cons]
    exact ih _ (nodup_gadd _ (nodup_gdel _ h))

theorem mget_kfree {m : List (String × String)}
    (hfresh : ∀ pr ∈ m, pr.2 ∉ m.map Prod.fst) (x : Node) :
    KfreeN (m.map Prod.fst) (mget m x) := by
  intro c hc
  cases x with
  | lit a => simp [mget]
  | uri u =>
    simp only [mget]
    cases halk : alookup m u with
    | some v =>
      intro he
      injection he with he
      exact hfresh (u, v) (alookup_mem halk) (he ▸ hc)
    | none =>
      intro he
      injection he with he
      subst he
      obtain ⟨pr, hpr, hpe⟩ := List.mem_map.mp hc
      obtain ⟨p1, p2⟩ := pr
      simp only at hpe
      subst hpe
      have := alookup_isSome_of_mem hpr
      rw [halk] at this
      simp at this

theorem uri_kfree {m : List (String × String)}
    (hfresh : ∀ pr ∈ m, pr.2 ∉ m.map Prod.fst)
    {D Dnn : String} (hpc : (D, Dnn) ∈ m) :
    KfreeN (m.map Prod.fst) (.uri Dnn) := by
  intro c hc he
  injection he with he
  exact hfresh (D, Dnn) hpc (he ▸ hc)

theorem lit_kfree {K : List String} (a : String) : KfreeN K (.lit a) := by
  intro c hc he
  exact Node.noConfusion he

theorem isLabelNode_eq {labels : List String} {o : Node}
    (h : isLabelNode labels o = true) : ∃ u, o = .uri u ∧ u ∈ labels := by
  cases o with
  | uri u => exact ⟨u, rfl, by simpa [isLabelNode] using h⟩
  | lit a => simp [isLabelNode] at h

theorem computeOnn_kfree {m : List (String × String)} {labels : List String}
    (hfresh : ∀ pr ∈ m, pr.2 ∉ m.map Prod.fst)
    (hlrep : ∀ u ∈ labels, ∀ pr ∈ m, strReplace u pr.1 pr.2 ∉ m.map Prod.fst)
    {D Dnn : String} (hpc : (D, Dnn) ∈ m) (o : Node) :
    KfreeN (m.map Prod.fst) (computeOnn m labels D Dnn o) := by
  cases o with
  | lit a =>
    intro c hc
    simp [computeOnn]
  | uri u =>
    simp only [computeOnn]
    by_cases hu : u ∈ labels
    · rw [if_pos hu]
      intro c hc he
      injection he with he
      exact hlrep u hu (D, Dnn) hpc (he ▸ hc)
    · rw [if_neg hu]
      exact mget_kfree hfresh _

theorem mem_candidate_keys {m : List (String × String)} {D Dnn : String}
    (hpc : (D, Dnn) ∈ m) : D ∈ m.map Prod.fst :=
  List.mem_map_of_mem Prod.fst hpc

theorem GOK_PredOK {K P : List String} {B g : Graph}
    (hB : PredOK P B) (hg : GOK K P B g) : PredOK P g :=
  fun x hx => (hg x hx).elim (hB x) (fun h => h.2.2)

theorem foldl_gaddel_GOK {K P : List String} {B : Graph} (f : Triple → Triple)
    (hf : ∀ t, (t.p ∈ P ∨ t.p = NNP_sourced_from) → AddOK K P (f t)) :
    ∀ (l : List Triple) (g : Graph), GOK K P B g →
      (∀ t ∈ l, t.p ∈ P ∨ t.p = NNP_sourced_from) →
      GOK K P B (l.foldl (fun g' t => gadd (gdel g' t) (f t)) g) := by
  intro l
  induction l with
  | nil => intro g hg _; exact hg
  | cons t l ih =>
    intro g hg hl
    simp only [List.foldl_cons]
    apply ih
    · intro x hx
      rcases mem_gadd.mp hx with h1 | h2
      · exact hg x (mem_gdel.mp h1).1
      · exact h2 ▸ Or.inr (hf t (hl t (List.mem_cons_self _ _)))
    · exact fun t' ht' => hl t' (List.mem_cons_of_mem _ ht')

theorem rewriteLabel_GOK {m : List (String × String)}
    (hfresh : ∀ pr ∈ m, pr.2 ∉ m.map Prod.fst)
    {P : List String} {B : Graph} {o onn : Node} {g : Graph}
    (hB : PredOK P B) (honn : KfreeN (m.map Prod.fst) onn)
    (hg : GOK (m.map Prod.fst) P B g) :
    GOK (m.map Prod.fst) P B (rewriteLabel m g o onn) := by
  unfold rewriteLabel
  have := foldl_gaddel_GOK (K := m.map Prod.fst) (B := B)
    (fun t => ⟨onn, t.p, mget m t.o⟩)
    (fun t ht => ⟨honn, mget_kfree hfresh _, ht⟩)
    (g.filter (fun t => decide (t.s = o))) g hg
    (fun t ht => GOK_PredOK hB hg t (List.mem_filter.mp ht).1)
  exact this

theorem stepOut_GOK {m : List (String × String)} {labels : List String}
    (hfresh : ∀ pr ∈ m, pr.2 ∉ m.map Prod.fst)
    (hlrep : ∀ u ∈ labels, ∀ pr ∈ m, strReplace u pr.1 pr.2 ∉ m.map Prod.fst)
    {D Dnn : String} (hpc : (D, Dnn) ∈ m)
    {P : List String} {B : Graph} {g : Graph} {t : Triple}
    (hB : PredOK P B) (hg : GOK (m.map Prod.fst) P B g)
    (ht : t.p ∈ P ∨ t.p = NNP_sourced_from) :
    GOK (m.map Prod.fst) P B (stepOut m labels D Dnn g t) := by
  simp only [stepOut]
  have hg1 : GOK (m.map Prod.fst) P B
      (gadd (gdel g t) ⟨.uri Dnn, t.p, computeOnn m labels D Dnn t.o⟩) := by
    intro x hx
    rcases mem_gadd.mp hx with h1 | h2
    · exact hg x (mem_gdel.mp h1).1
    · exact h2 ▸ Or.inr ⟨uri_kfree hfresh hpc, computeOnn_kfree hfresh hlrep hpc _, ht⟩
  by_cases hl : isLabelNode labels t.o = true
  · rw [if_pos hl]
    exact rewriteLabel_GOK hfresh hB (computeOnn_kfree hfresh hlrep hpc _) hg1
  · rw [if_neg hl]
    exact hg1

theorem processOutgoing_GOK {m : List (String × String)} {labels : List String}
    (hfresh : ∀ pr ∈ m, pr.2 ∉ m.map Prod.fst)
    (hlrep : ∀ u ∈ labels, ∀ pr ∈ m, strReplace u pr.1 pr.2 ∉ m.map Prod.fst)
    {D Dnn : String} (hpc : (D, Dnn) ∈ m)
    {P : List String} {B : Graph} {g : Graph}
    (hB : PredOK P B) (hg : GOK (m.map Prod.fst) P B g) :
    GOK (m.map Prod.fst) P B (processOutgoing m labels D Dnn g) := by
  unfold processOutgoing
  have haux : ∀ (l : List Triple) (g' : Graph), GOK (m.map Prod.fst) P B g' →
      (∀ t ∈ l, t.p ∈ P ∨ t.p = NNP_sourced_from) →
      GOK (m.map Prod.fst) P B (l.foldl (stepOut m labels D Dnn) g') := by
    intro l
    induction l with
    | nil => intro g' hg' _; exact hg'
    | cons t l ih =>
      intro g' hg' hl
      simp only [List.foldl_cons]
      exact ih _ (stepOut_GOK hfresh hlrep hpc hB hg' (hl t (List.mem_cons_self _ _)))
        (fun t' ht' => hl t' (List.mem_cons_of_mem _ ht'))
  exact haux _ g hg (fun t ht => GOK_PredOK hB hg t (List.mem_filter.mp ht).1)

theorem processIncoming_GOK {m : List (String × String)}
    (hfresh : ∀ pr ∈ m, pr.2 ∉ m.map Prod.fst)
    {D Dnn : String} (hpc : (D, Dnn) ∈ m)
    {P : List String} {B : Graph} {g : Graph}
    (hB : PredOK P B) (hg : GOK (m.map Prod.fst) P B g) :
    GOK (m.map Prod.fst) P B (processIncoming m D Dnn g) := by
  unfold processIncoming
  have := foldl_gaddel_GOK (K := m.map Prod.fst) (B := B)
    (fun t => ⟨mget m t.s, t.p, .uri Dnn⟩)
    (fun t ht => ⟨mget_kfree hfresh _, uri_kfree hfresh hpc, ht⟩)
    (g.filter (fun t => decide (t.o = .uri D))) g hg
    (fun t ht => GOK_PredOK hB hg t (List.mem_filter.mp ht).1)
  exact this

theorem processCandidate_GOK {m : List (String × String)} {labels : List String}
    {qualify : String → String}
    (hfresh : ∀ pr ∈ m, pr.2 ∉ m.map Prod.fst)
    (hlrep : ∀ u ∈ labels, ∀ pr ∈ m, strReplace u pr.1 pr.2 ∉ m.map Prod.fst)
    {pc : String × String} (hpc : pc ∈ m)
    {P : List String} {B : Graph} {g : Graph}
    (hB : PredOK P B) (hg : GOK (m.map Prod.fst) P B g) :
    GOK (m.map Prod.fst) P B (processCandidate m labels qualify g pc) := by
  obtain ⟨D, Dnn⟩ := pc
  simp only [processCandidate]
  have h1 := processOutgoing_GOK hfresh hlrep hpc hB hg
  have h2 := processIncoming_GOK hfresh hpc hB h1
  intro x hx
  rcases mem_gadd.mp hx with h3 | h3
  · exact h2 x h3
  · exact h3 ▸ Or.inr ⟨uri_kfree hfresh hpc, lit_kfree _, Or.inr rfl⟩

theorem rewriteLabel_mem {m : List (String × String)} {g : Graph} {o onn : Node}
    {x : Triple} (hx : x ∈ rewriteLabel m g o onn) :
    x ∈ g ∨ ∃ t' : Triple, x = ⟨onn, t'.p, mget m t'.o⟩ := by
  unfold rewriteLabel at hx
  have hx' : x ∈ (g.filter (fun t => decide (t.s = o))).foldl
      (fun g' t => gadd (gdel g' t)
        ((fun t' => (⟨onn, t'.p, mget m t'.o⟩ : Triple)) t)) g := hx
  rcases foldl_gaddel_mem _ _ _ x hx' with h1 | ⟨t', _, he⟩
  · exact Or.inl h1
  · exact Or.inr ⟨t', he⟩

theorem rewriteLabel_keep {m : List (String × String)} {g : Graph} {o onn : Node}
    {x : Triple} (hx : x ∈ g) (hs : x.s ≠ o) : x ∈ rewriteLabel m g o onn := by
  unfold rewriteLabel
  show x ∈ (g.filter (fun t => decide (t.s = o))).foldl
    (fun g' t => gadd (gdel g' t)
      ((fun t' => (⟨onn, t'.p, mget m t'.o⟩ : Triple)) t)) g
  apply foldl_gaddel_keep _ _ _ _ hx
  intro t ht he
  subst he
  exact hs (by simpa using (List.mem_filter.mp ht).2)

theorem rewriteLabel_nodup {m : List (String × String)} {g : Graph} {o onn : Node}
    (h : g.Nodup) : (rewriteLabel m g o onn).Nodup := by
  unfold rewriteLabel
  show ((g.filter (fun t => decide (t.s = o))).foldl
    (fun g' t => gadd (gdel g' t)
      ((fun t' => (⟨onn, t'.p, mget m t'.o⟩ : Triple)) t)) g).Nodup
  exact foldl_gaddel_nodup _ _ _ h

theorem stepOut_mem {m : List (String × String)} {labels : List String}
    {D Dnn : String} {g : Graph} {t x : Triple}
    (hx : x ∈ stepOut m labels D Dnn g t) :
    (x ∈ g ∧ x ≠ t) ∨
    x = ⟨.uri Dnn, t.p, computeOnn m labels D Dnn t.o⟩ ∨
    (isLabelNode labels t.o = true ∧
      ∃ t' : Triple, x = ⟨computeOnn m labels D Dnn t.o, t'.p, mget m t'.o⟩) := by
  simp only [stepOut] at hx
  by_cases hl : isLabelNode labels t.o = true
  · rw [if_pos hl] at hx
    rcases rewriteLabel_mem hx with h1 | ⟨t', he⟩
    · rcases mem_gadd.mp h1 with h2 | h2
      · exact Or.inl (mem_gdel.mp h2)
      · exact Or.inr (Or.inl h2)
    · exact Or.inr (Or.inr ⟨hl, t', he⟩)
  · rw [if_neg hl] at hx
    rcases mem_gadd.mp hx with h1 | h2
    · exact Or.inl (mem_gdel.mp h1)
    · exact Or.inr (Or.inl h2)

theorem stepOut_nodup {m : List (String × String)} {labels : List String}
    {D Dnn : String} {g : Graph} {t : Triple} (h : g.Nodup) :
    (stepOut m labels D Dnn g t).Nodup := by
  simp only [stepOut]
  by_cases hl : isLabelNode labels t.o = true
  · rw [if_pos hl]
    exact rewriteLabel_nodup (nodup_gadd _ (nodup_gdel _ h))
  · rw [if_neg hl]
    exact nodup_gadd _ (nodup_gdel _ h)

theorem stepOut_keep {m : List (String × String)} {labels : List String}
    {D Dnn : String} {g : Graph} {t x : Triple}
    (hx : x ∈ g) (hne : x ≠ t) (hsl : ∀ u ∈ labels, x.s ≠ .uri u) :
    x ∈ stepOut m labels D Dnn g t := by
  simp only [stepOut]
  have h1 : x ∈ gadd (gdel g t) ⟨.uri Dnn, t.p, computeOnn m labels D Dnn t.o⟩ :=
    mem_gadd.mpr (Or.inl (mem_gdel.mpr ⟨hx, hne⟩))
  by_cases hl : isLabelNode labels t.o = true
  · rw [if_pos hl]
    obtain ⟨u, huo, hul⟩ := isLabelNode_eq hl
    exact rewriteLabel_keep h1 (huo ▸ hsl u hul)
  · rw [if_neg hl]
    exact h1

theorem outFold_no_subj {m : List (String × String)} {labels : List String}
    (hfresh : ∀ pr ∈ m, pr.2 ∉ m.map Prod.fst)
    (hlrep : ∀ u ∈ labels, ∀ pr ∈ m, strReplace u pr.1 pr.2 ∉ m.map Prod.fst)
    {D Dnn : String} (hpc : (D, Dnn) ∈ m) :
    ∀ (l : List Triple) (g : Graph),
      (∀ x ∈ g, x.s = .uri D → x ∈ l) →
      ∀ x ∈ l.foldl (stepOut m labels D Dnn) g, x.s ≠ .uri D := by
  intro l
  induction l with
  | nil =>
    intro g hpre x hx he
    exact absurd (hpre x hx he) (List.not_mem_nil x)
  | cons t l ih =>
    intro g hpre x hx
    simp only [List.foldl_cons] at hx
    apply ih _ ?_ x hx
    intro y hy hey
    rcases stepOut_mem hy with ⟨hyg, hyne⟩ | h2 | ⟨hl, t', he⟩
    · rcases List.mem_cons.mp (hpre y hyg hey) with h3 | h3
      · exact absurd h3 hyne
      · exact h3
    · rw [h2] at hey
      dsimp only at hey
      exact absurd hey (uri_kfree hfresh hpc D (mem_candidate_keys hpc))
    · rw [he] at hey
      dsimp only at hey
      exact absurd hey (computeOnn_kfree hfresh hlrep hpc t.o D (mem_candidate_keys hpc))

theorem processOutgoing_no_subj {m : List (String × String)} {labels : List String}
    (hfresh : ∀ pr ∈ m, pr.2 ∉ m.map Prod.fst)
    (hlrep : ∀ u ∈ labels, ∀ pr ∈ m, strReplace u pr.1 pr.2 ∉ m.map Prod.fst)
    {D Dnn : String} (hpc : (D, Dnn) ∈ m) (g : Graph) :
    ∀ x ∈ processOutgoing m labels D Dnn g, x.s ≠ .uri D := by
  unfold processOutgoing
  apply outFold_no_subj hfresh hlrep hpc
  intro x hx he
  exact List.mem_filter.mpr ⟨hx, by simpa using he⟩

theorem processIncoming_clears {m : List (String × String)}
    (hfresh : ∀ pr ∈ m, pr.2 ∉ m.map Prod.fst)
    {D Dnn : String} (hpc : (D, Dnn) ∈ m) {g : Graph}
    (hs : ∀ x ∈ g, x.s ≠ .uri D) :
    ∀ x ∈ processIncoming m D Dnn g, x.s ≠ .uri D ∧ x.o ≠ .uri D := by
  intro x hx
  unfold processIncoming at hx
  have hx' : x ∈ (g.filter (fun t => decide (t.o = .uri D))).foldl
      (fun g' t => gadd (gdel g' t)
        ((fun t' => (⟨mget m t'.s, t'.p, .uri Dnn⟩ : Triple)) t)) g := hx
  constructor
  · rcases foldl_gaddel_mem _ _ _ x hx' with h1 | ⟨t', _, he⟩
    · exact hs x h1
    · rw [he]
      dsimp only
      exact mget_kfree hfresh t'.s D (mem_candidate_keys hpc)
  · exact foldl_gaddel_elim _ (fun y => y.o = .uri D)
      (fun t he => uri_kfree hfresh hpc D (mem_candidate_keys hpc) he)
      _ g (fun y hy hey => List.mem_filter.mpr ⟨hy, by simpa using hey⟩) x hx'

theorem processCandidate_clears {m : List (String × String)} {labels : List String}
    {qualify : String → String}
    (hfresh : ∀ pr ∈ m, pr.2 ∉ m.map Prod.fst)
    (hlrep : ∀ u ∈ labels, ∀ pr ∈ m, strReplace u pr.1 pr.2 ∉ m.map Prod.fst)
    {pc : String × String} (hpc : pc ∈ m) (g : Graph) :
    ∀ x ∈ processCandidate m labels qualify g pc,
      x.s ≠ .uri pc.1 ∧ x.o ≠ .uri pc.1 := by
  obtain ⟨D, Dnn⟩ := pc
  intro x hx
  simp only [processCandidate] at hx
  rcases mem_gadd.mp hx with h1 | h2
  · exact processIncoming_clears hfresh hpc
      (processOutgoing_no_subj hfresh hlrep hpc g) x h1
  · subst h2
    exact ⟨uri_kfree hfresh hpc D (mem_candidate_keys hpc),
           fun he => Node.noConfusion he⟩

theorem processCandidate_keeps {m : List (String × String)} {labels : List String}
    {qualify : String → String}
    (hfresh : ∀ pr ∈ m, pr.2 ∉ m.map Prod.fst)
    (hlrep : ∀ u ∈ labels, ∀ pr ∈ m, strReplace u pr.1 pr.2 ∉ m.map Prod.fst)
    {pc : String × String} (hpc : pc ∈ m) {P : List String} {g : Graph}
    (hPg : PredOK P g) {c : String} (hc : c ∈ m.map Prod.fst)
    (hclear : ∀ x ∈ g, x.s ≠ .uri c ∧ x.o ≠ .uri c) :
    ∀ x ∈ processCandidate m labels qualify g pc, x.s ≠ .uri c ∧ x.o ≠ .uri c := by
  intro x hx
  have hres := processCandidate_GOK hfresh hlrep hpc (B := g) (P := P) hPg
    (fun y hy => Or.inl hy) x hx
  rcases hres with h1 | h2
  · exact hclear x h1
  · exact ⟨h2.1 c hc, h2.2.1 c hc⟩

theorem processOutgoing_nodup {m : List (String × String)} {labels : List String}
    {D Dnn : String} {g : Graph} (h : g.Nodup) :
    (processOutgoing m labels D Dnn g).Nodup := by
  unfold processOutgoing
  have haux : ∀ (l : List Triple) (g' : Graph), g'.Nodup →
      (l.foldl (stepOut m labels D Dnn) g').Nodup := by
    intro l
    induction l with
    | nil => intro g' h'; exact h'
    | cons t l ih =>
      intro g' h'
      simp only [List.foldl_cons]
      exact ih _ (stepOut_nodup h')
  exact haux _ g h

theorem processIncoming_nodup {m : List (String × String)} {D Dnn : String}
    {g : Graph} (h : g.Nodup) : (processIncoming m D Dnn g).Nodup := by
  unfold processIncoming
  show ((g.filter (fun t => decide (t.o = .uri D))).foldl
    (fun g' t => gadd (gdel g' t)
      ((fun t' => (⟨mget m t'.s, t'.p, .uri Dnn⟩ : Triple)) t)) g).Nodup
  exact foldl_gaddel_nodup _ _ _ h

theorem processCandidate_nodup {m : List (String × String)} {labels : List String}
    {qualify : String → String} {pc : String × String} {g : Graph} (h : g.Nodup) :
    (processCandidate m labels qualify g pc).Nodup := by
  simp only [processCandidate]
  exact nodup_gadd _ (processIncoming_nodup (processOutgoing_nodup h))

theorem rewriteAll_nodup {m : List (String × String)} {labels : List String}
    {qualify : String → String} {g : Graph} (h : g.Nodup) :
    (rewriteAll m labels qualify g).Nodup := by
  unfold rewriteAll
  have haux : ∀ (l : List (String × String)) (g' : Graph), g'.Nodup →
      (l.foldl (processCandidate m labels qualify) g').Nodup := by
    intro l
    induction l with
    | nil => intro g' h'; exact h'
    | cons pc l ih =>
      intro g' h'
      simp only [List.foldl_cons]
      exact ih _ (processCandidate_nodup h')
  exact haux _ g h

theorem outFold_keep {m : List (String × String)} {labels : List String}
    {D Dnn : String} {x : Triple}
    (hsD : x.s ≠ .uri D) (hsl : ∀ u ∈ labels, x.s ≠ .uri u) :
    ∀ (l : List Triple) (g : Graph), (∀ t ∈ l, t.s = .uri D) → x ∈ g →
      x ∈ l.foldl (stepOut m labels D Dnn) g := by
  intro l
  induction l with
  | nil => intro g _ hx; exact hx
  | cons t l ih =>
    intro g hl hx
    simp only [List.foldl_cons]
    apply ih _ (fun t' ht' => hl t' (List.mem_cons_of_mem _ ht'))
    apply stepOut_keep hx ?_ hsl
    intro he
    rw [he] at hsD
    exact hsD (hl t (List.mem_cons_self _ _))

theorem processCandidate_survives {m : List (String × String)} {labels : List String}
    {qualify : String → String} {pc : String × String} {g : Graph} {x : Triple}
    (hx : x ∈ g) (hsD : x.s ≠ .uri pc.1) (hoD : x.o ≠ .uri pc.1)
    (hsl : ∀ u ∈ labels, x.s ≠ .uri u) :
    x ∈ processCandidate m labels qualify g pc := by
  obtain ⟨D, Dnn⟩ := pc
  simp only [processCandidate]
  apply mem_gadd.mpr
  apply Or.inl
  have h1 : x ∈ processOutgoing m labels D Dnn g := by
    unfold processOutgoing
    apply outFold_keep hsD hsl
    · intro t ht
      simpa using (List.mem_filter.mp ht).2
    · exact hx
  unfold processIncoming
  show x ∈ ((processOutgoing m labels D Dnn g).filter
      (fun t => decide (t.o = .uri D))).foldl
    (fun g' t => gadd (gdel g' t)
      ((fun t' => (⟨mget m t'.s, t'.p, .uri Dnn⟩ : Triple)) t))
    (processOutgoing m labels D Dnn g)
  apply foldl_gaddel_keep _ _ _ _ h1
  intro t ht he
  rw [he] at hoD
  exact hoD (by simpa using (List.mem_filter.mp ht).2)

theorem foldl_processCandidate_survives {m : List (String × String)}
    {labels : List String} {qualify : String → String} {x : Triple}
    (hsK : ∀ c ∈ m.map Prod.fst, x.s ≠ .uri c)
    (hoK : ∀ c ∈ m.map Prod.fst, x.o ≠ .uri c)
    (hsl : ∀ u ∈ labels, x.s ≠ .uri u) :
    ∀ (l : List (String × String)) (g : Graph), (∀ pc ∈ l, pc ∈ m) → x ∈ g →
      x ∈ l.foldl (processCandidate m labels qualify) g := by
  intro l
  induction l with
  | nil => intro g _ hx; exact hx
  | cons pc l ih =>
    intro g hsub hx
    simp only [List.foldl_cons]
    apply ih _ (fun pc' h => hsub pc' (List.mem_cons_of_mem _ h))
    exact processCandidate_survives hx
      (hsK pc.1 (List.mem_map_of_mem Prod.fst (hsub pc (List.mem_cons_self _ _))))
      (hoK pc.1 (List.mem_map_of_mem Prod.fst (hsub pc (List.mem_cons_self _ _))))
      hsl

theorem rewriteAll_aux {m : List (String × String)} {labels : List String}
    {qualify : String → String} {g0 : Graph}
    (hfresh : ∀ pr ∈ m, pr.2 ∉ m.map Prod.fst)
    (hlrep : ∀ u ∈ labels, ∀ pr ∈ m, strReplace u pr.1 pr.2 ∉ m.map Prod.fst)
    (hP0 : PredOK (g0.map Triple.p) g0) :
    ∀ (l : List (String × String)) (g : Graph),
      (∀ pc ∈ l, pc ∈ m) →
      GOK (m.map Prod.fst) (g0.map Triple.p) g0 g →
      GOK (m.map Prod.fst) (g0.map Triple.p) g0
        (l.foldl (processCandidate m labels qualify) g) ∧
      (∀ c ∈ m.map Prod.fst, (∀ x ∈ g, x.s ≠ .uri c ∧ x.o ≠ .uri c) →
        ∀ x ∈ l.foldl (processCandidate m labels qualify) g,
          x.s ≠ .uri c ∧ x.o ≠ .uri c) ∧
      (∀ pc ∈ l, ∀ x ∈ l.foldl (processCandidate m labels qualify) g,
        x.s ≠ .uri pc.1 ∧ x.o ≠ .uri pc.1) := by
  intro l
  induction l with
  | nil =>
    intro g hsub hg
    exact ⟨hg, fun c hc hcl => hcl,
      fun pc h => absurd h (List.not_mem_nil pc)⟩
  | cons pc l ih =>
    intro g hsub hg
    have hpcm := hsub pc (List.mem_cons_self _ _)
    have hsub' : ∀ pc' ∈ l, pc' ∈ m :=
      fun pc' h => hsub pc' (List.mem_cons_of_mem _ h)
    have hg1 : GOK (m.map Prod.fst) (g0.map Triple.p) g0
        (processCandidate m labels qualify g pc) :=
      processCandidate_GOK hfresh hlrep hpcm hP0 hg
    obtain ⟨ihG, ihK, ihL⟩ := ih (processCandidate m labels qualify g pc) hsub' hg1
    simp only [List.foldl_cons]
    refine ⟨ihG, ?_, ?_⟩
    · intro c hc hcl
      exact ihK c hc
        (processCandidate_keeps hfresh hlrep hpcm (GOK_PredOK hP0 hg) hc hcl)
    · intro pc' hpc' x hx
      rcases List.mem_cons.mp hpc' with h1 | h2
      · subst h1
        exact ihK pc'.1 (List.mem_map_of_mem Prod.fst hpcm)
          (processCandidate_clears hfresh hlrep hpcm g) x hx
      · exact ihL pc' h2 x hx

/-- C1: after the full rewrite pass, for every candidate `C` with assigned
internal identifier `C'`: no triple of the resulting graph mentions `C` — not
as subject, not as predicate, not as object (the provenance literal, being a
literal node, is no such mention) — and the provenance triple
`(C', sourced_from, literal (qualified C))` occurs exactly once.  The
preconditions are the pass's operating assumptions: minted identifiers are
fresh (not candidates themselves, not label nodes), label identifiers
rewritten by textual substitution never collide with a candidate, candidates
do not occur in predicate position, the provenance predicate is not a
candidate, and the input graph is duplicate-free (rdflib set semantics). -/
theorem c1_rewrite_removes_candidates (m : List (String × String))
    (labels : List String) (qualify : String → String) (g0 : Graph)
    (hfresh : ∀ pr ∈ m, pr.2 ∉ m.map Prod.fst)
    (hflab : ∀ pr ∈ m, pr.2 ∉ labels)
    (hlrep : ∀ u ∈ labels, ∀ pr ∈ m, strReplace u pr.1 pr.2 ∉ m.map Prod.fst)
    (hpred : ∀ t ∈ g0, t.p ∉ m.map Prod.fst)
    (hprovp : NNP_sourced_from ∉ m.map Prod.fst)
    (hnd : g0.Nodup) :
    ∀ pr ∈ m,
      (∀ x ∈ rewriteAll m labels qualify g0,
        x.s ≠ .uri pr.1 ∧ x.p ≠ pr.1 ∧ x.o ≠ .uri pr.1) ∧
      (rewriteAll m labels qualify g0).count
        ⟨.uri pr.2, NNP_sourced_from, .lit (qualify pr.1)⟩ = 1 := by
  intro pr hpr
  have hprK : pr.1 ∈ m.map Prod.fst := List.mem_map_of_mem Prod.fst hpr
  have hpr2 : (pr.1, pr.2) ∈ m := by
    rw [Prod.mk.eta]
    exact hpr
  have hP0 : PredOK (g0.map Triple.p) g0 :=
    fun x hx => Or.inl (List.mem_map_of_mem _ hx)
  have hGOK0 : GOK (m.map Prod.fst) (g0.map Triple.p) g0 g0 :=
    fun x hx => Or.inl hx
  obtain ⟨hG, hK, hL⟩ := rewriteAll_aux hfresh hlrep hP0 m g0 (fun pc h => h) hGOK0
  constructor
  · intro x hx
    have hx' : x ∈ m.foldl (processCandidate m labels qualify) g0 := hx
    have hso := hL pr hpr x hx'
    refine ⟨hso.1, ?_, hso.2⟩
    rcases hG x hx' with h1 | h2
    · intro he
      exact hpred x h1 (he ▸ hprK)
    · rcases h2.2.2 with h3 | h3
      · obtain ⟨t0, ht0, hte⟩ := List.mem_map.mp h3
        intro he
        apply hpred t0 ht0
        rw [hte, he]
        exact hprK
      · intro he
        apply hprovp
        rw [← h3, he]
        exact hprK
  · have hnodup : (rewriteAll m labels qualify g0).Nodup := rewriteAll_nodup hnd
    have hmem : (⟨.uri pr.2, NNP_sourced_from, .lit (qualify pr.1)⟩ : Triple) ∈
        rewriteAll m labels qualify g0 := by
      obtain ⟨l1, l2, hsplit⟩ := List.append_of_mem hpr
      have hstep := congrArg (List.foldl (processCandidate m labels qualify) g0) hsplit
      rw [List.foldl_append, List.foldl_cons] at hstep
      unfold rewriteAll
      rw [hstep]
      have hmem0 : (⟨.uri pr.2, NNP_sourced_from, .lit (qualify pr.1)⟩ : Triple) ∈
          processCandidate m labels qualify
            (l1.foldl (processCandidate m labels qualify) g0) pr := by
        simp only [processCandidate]
        exact mem_gadd.mpr (Or.inr rfl)
      apply foldl_processCandidate_survives ?_ ?_ ?_ l2 _ ?_ hmem0
      · intro c hc he
        injection he with he
        exact hfresh pr hpr (he ▸ hc)
      · intro c hc he
        exact Node.noConfusion he
      · intro u hu he
        injection he with he
        exact hflab pr hpr (he ▸ hu)
      · intro pc hpc
        rw [hsplit]
        exact List.mem_append_right _ (List.mem_cons_of_mem _ hpc)
    exact List.count_eq_one_of_mem hnodup hmem

/-- The rewrite scenario of the spec: one candidate subject with an outgoing
literal-valued triple, an outgoing plain-object triple and an incoming
triple; no label nodes. -/
def scenarioGraph : Graph :=
  [⟨.uri "http://example.org/1", "http://example.org/p", .lit "x"⟩,
   ⟨.uri "http://example.org/1", "http://example.org/q",
    .uri "http://example.org/other"⟩,
   ⟨.uri "http://example.org/z", "http://example.org/r",
    .uri "http://example.org/1"⟩]

/-- The assignment minted for the scenario's single candidate. -/
def scenarioMap : List (String × String) :=
  [("http://example.org/1", "https://ontology.novonordisk.com/01000001")]

theorem c1_rewrite_removes_candidates_witness :
    (∀ x ∈ rewriteAll scenarioMap []
        (fun u => Converter2.compress_fast convEx u) scenarioGraph,
      x.s ≠ .uri "http://example.org/1" ∧ x.p ≠ "http://example.org/1" ∧
      x.o ≠ .uri "http://example.org/1") ∧
    (rewriteAll scenarioMap [] (fun u => Converter2.compress_fast convEx u)
        scenarioGraph).count
      ⟨.uri "https://ontology.novonordisk.com/01000001", NNP_sourced_from,
       .lit (Converter2.compress_fast convEx "http://example.org/1")⟩ = 1 :=
  c1_rewrite_removes_candidates scenarioMap []
    (fun u => Converter2.compress_fast convEx u) scenarioGraph
    (by decide) (by decide) (by decide) (by decide) (by decide) (by decide)
    ("http://example.org/1", "https://ontology.novonordisk.com/01000001")
    (by decide)

/- THEOREMS-ANCHOR (new theorems go above this line) -/

end OBDM
